import Mathlib

/-!
Verification development for a disk-backed B+Tree key-value store
(B+Tree over fixed-size pages with a write-ahead log, page manager with a
persistent free list, and overflow chains for large values).

Modelling conventions, stated once here:

* Node Buffers are modelled by `ByteStr`: a byte string of length `len`
  whose content is the natural number `val` in base-256 little-endian
  order (byte i of b is `b.val / 256 ^ i % 256`).  `Buffer.length` is an
  O(1) field in Node, which this mirrors.  Byte-exact equality of buffers
  is equality of `ByteStr` values (both fields).
* The data file is modelled at the granularity the program itself uses:
  a map from page numbers to decoded pages (`DPage`).  Every write the
  tree performs goes through one of the serializers before it reaches the
  file, and every read goes through the matching deserializer, so a page
  on disk is faithfully represented by its decoded form; the byte-level
  serializer round-trip is proved separately (claim C7).  The raw
  u32 reads the page manager and the overflow manager perform at byte
  offsets 0 and 4 of a page are given exactly by `DPage.u32at0` and
  `DPage.u32at4`, computed from the serialized layout of each page kind.
* The buffer pool of the program is a write-back cache over the file with
  at most one frame per page; in the sequential executions described by
  the claims every read observes the most recent write, so the pool is
  modelled as the identity layer over the page map (pin/unpin/flush/drop
  do not change the observable page contents).
* Fallible code (throw) is modelled with `Except String`; loops whose
  termination depends on disk contents take explicit fuel, and running
  out of fuel is an error (`.error "fuel"`), mirroring that the program
  would not return a value there.
-/

namespace BPT

/-- Byte string: length plus base-256 little-endian content. -/
structure ByteStr where
  len : Nat
  val : Nat
  deriving DecidableEq, Repr

namespace ByteStr

/-- Empty byte string (Buffer.alloc(0)). -/
def empty : ByteStr := ⟨0, 0⟩

/-- Buffer.subarray(0, n) / taking the first n bytes. -/
def btake (b : ByteStr) (n : Nat) : ByteStr :=
  ⟨min n b.len, b.val % 256 ^ (min n b.len)⟩

/-- Buffer.subarray(n) / dropping the first n bytes. -/
def bdrop (b : ByteStr) (n : Nat) : ByteStr :=
  ⟨b.len - n, b.val / 256 ^ n⟩

/-- Byte i of the string. -/
def byteAt (b : ByteStr) (i : Nat) : Nat :=
  b.val / 256 ^ i % 256

/-- Buffer.concat([a, b], totalLength): concatenation truncated or
zero-padded to the requested total length. -/
def concatTo (a b : ByteStr) (totalLength : Nat) : ByteStr :=
  ⟨totalLength, (a.val + b.val * 256 ^ a.len) % 256 ^ totalLength⟩

end ByteStr

/-! Constants from src/constants.ts (derived from the fixed
PAGE_SIZE_BYTES = 4096 regardless of the configured page size). -/

def PAGE_SIZE_BYTES : Nat := 4 * 1024
def PAGE_HEADER_SIZE : Nat := 32
def INTERNAL_CHILD_POINTER_BYTES : Nat := 4
def KEY_SIZE_BYTES : Nat := 8
def OVERFLOW_HEADER_SIZE : Nat := 16
def MAX_INTERNAL_KEYS : Nat :=
  (PAGE_SIZE_BYTES - PAGE_HEADER_SIZE - INTERNAL_CHILD_POINTER_BYTES) /
    (KEY_SIZE_BYTES + INTERNAL_CHILD_POINTER_BYTES)
def MIN_INTERNAL_KEYS : Nat := MAX_INTERNAL_KEYS / 2
def MAX_LEAF_KEYS : Nat :=
  (PAGE_SIZE_BYTES - PAGE_HEADER_SIZE) / (KEY_SIZE_BYTES + 14)
def MIN_LEAF_KEYS : Nat := MAX_LEAF_KEYS / 2

/-- Leaf cell (src/tree/pages.ts LeafCell): key as the decoded unsigned
64-bit big-endian integer, inline value bytes, the total value length and
the overflow chain head page (0 = none). -/
structure LeafCell where
  key : Nat
  inlineValue : ByteStr
  valueLength : Nat
  overflowPage : Nat
  deriving DecidableEq, Repr

/-- Internal cell (src/tree/pages.ts InternalCell). -/
structure InternalCell where
  key : Nat
  child : Nat
  deriving DecidableEq, Repr

/-- Leaf page payload (keyCount of the decoded structure always equals
cells.length, which deserializeLeaf guarantees, so it is not repeated). -/
structure LeafPage where
  rightSibling : Nat
  cells : List LeafCell
  deriving DecidableEq, Repr

/-- Internal page payload. -/
structure InternalPage where
  rightSibling : Nat
  leftChild : Nat
  cells : List InternalCell
  deriving DecidableEq, Repr

/-- Meta page fields (src/storage/pageManager.ts MetaPage).  keyCount is
a JS bigint (unbounded, possibly negative in memory); writeMeta fails if
it does not fit u64, mirroring writeBigUInt64LE. -/
structure MetaPage where
  pageSize : Nat
  rootPage : Nat
  treeDepth : Nat
  totalPages : Nat
  keyCount : Int
  freePageHead : Nat
  deriving DecidableEq, Repr

/-- A decoded page of the data file.
`freePg next` is a page whose bytes are all zero except a u32 `next` at
offset 0: exactly what PageManager.freePage writes, and with next = 0
also the all-zero page produced by bump allocation.
`meta m` is page 0 content written by writeMeta (magic valid). -/
inductive DPage where
  | meta (m : MetaPage)
  | internal (p : InternalPage)
  | leaf (p : LeafPage)
  | overflow (next length : Nat) (payload : ByteStr)
  | freePg (next : Nat)
  deriving DecidableEq, Repr

namespace DPage

/-- u32 little-endian at byte offset 0 of the serialized page.
Leaf and internal pages store the type byte at 0, a zero byte at 1 and
the u16 cell count at 2; overflow pages store the type byte 3; meta pages
start with the magic BPTR... bytes; freed pages store the free-list
successor. -/
def u32at0 : DPage → Nat
  | .meta _ => 66 + 80 * 256 + 84 * 65536 + 82 * 16777216
  | .internal p => 1 + (p.cells.length % 256) * 65536 + (p.cells.length / 256 % 256) * 16777216
  | .leaf p => 2 + (p.cells.length % 256) * 65536 + (p.cells.length / 256 % 256) * 16777216
  | .overflow _ _ _ => 3
  | .freePg next => next

/-- u32 little-endian at byte offset 4 of the serialized page: the right
sibling for leaf and internal pages, the next pointer for overflow pages
(layout: type at 0, next at 4, length at 8, payload from 16), bytes 4..8
of the magic for the meta page, zero for freed pages. -/
def u32at4 : DPage → Nat
  | .meta _ => 69 + 69 * 256 + 95 * 65536 + 86 * 16777216
  | .internal p => p.rightSibling
  | .leaf p => p.rightSibling
  | .overflow next _ _ => next
  | .freePg _ => 0

end DPage

/-- State of the store: the decoded data file plus the configured page
size (pageManager.pageSize; the file manager pads missing pages with
zeros on demand, hence the total function with zero-page default built
into the initial state). -/
structure TreeSt where
  pageSize : Nat
  pages : Nat → DPage

/-- Read a page (FileManager.readPage through the buffer pool). -/
def TreeSt.pageGet (st : TreeSt) (n : Nat) : DPage := st.pages n

/-- Write a page (FileManager.writePage through the buffer pool). -/
def TreeSt.pageSet (st : TreeSt) (n : Nat) (p : DPage) : TreeSt :=
  ⟨st.pageSize, fun m => if m = n then p else st.pages m⟩

/-- Default meta returned by readMeta when page 0 has no magic. -/
def defaultMeta (pageSize : Nat) : MetaPage :=
  ⟨pageSize, 2, 1, 3, 0, 0⟩

/-- PageManager.readMeta: decode page 0.  A freed / zeroed page 0 has an
empty magic and yields the default meta.  A page 0 holding a b-tree or
overflow page would decode garbage fields; such states are never
produced by the modelled operations and are mapped to the default meta
as a documented approximation. -/
def readMeta (st : TreeSt) : MetaPage :=
  match st.pageGet 0 with
  | .meta m => m
  | _ => defaultMeta st.pageSize

/-- PageManager.writeMeta: fails when a field does not fit its
fixed-width slot (writeUInt32LE / writeBigUInt64LE range checks),
otherwise stores the meta page at page 0. -/
def writeMeta (st : TreeSt) (m : MetaPage) : Except String TreeSt :=
  if m.pageSize < 2 ^ 32 ∧ m.rootPage < 2 ^ 32 ∧ m.treeDepth < 2 ^ 32 ∧
      m.totalPages < 2 ^ 32 ∧ 0 ≤ m.keyCount ∧ m.keyCount < (2 : Int) ^ 64 ∧
      m.freePageHead < 2 ^ 32 then
    .ok (st.pageSet 0 (.meta m))
  else
    .error "meta field out of range"

/-- PageManager.allocatePage: pop the free-list head if non-zero
(reading the successor from the u32 at offset 0 of that page), otherwise
bump-allocate totalPages, which writes a zero page there. -/
def allocatePage (st : TreeSt) : Except String (Nat × TreeSt) := do
  let meta := readMeta st
  if meta.freePageHead > 0 then
    let pageNumber := meta.freePageHead
    let succ := (st.pageGet pageNumber).u32at0
    let st ← writeMeta st { meta with freePageHead := succ }
    return (pageNumber, st)
  else
    let pageNumber := meta.totalPages
    let st ← writeMeta st { meta with totalPages := meta.totalPages + 1 }
    let st := st.pageSet pageNumber (.freePg 0)
    return (pageNumber, st)

/-- PageManager.freePage: write a zero page holding the previous
free-list head at offset 0, then point the free-list head at the freed
page. -/
def freePage (st : TreeSt) (pageNumber : Nat) : Except String TreeSt := do
  let meta := readMeta st
  let st := st.pageSet pageNumber (.freePg meta.freePageHead)
  writeMeta st { meta with freePageHead := pageNumber }

/-! Overflow manager (storage/overflowManager.ts).  The buffer-pool pin,
flush and drop calls around each chunk do not change the observable page
contents and are omitted.  allocateChain in the source first writes a
chunk with next = 0 and then patches the u32 at offset 4 of that still
pinned buffer once the successor page is known; the model writes each
chunk once, with its final next pointer, which yields the same pages at
the end of the operation. -/

/-- OverflowManager.allocateChain main loop.  remaining is non-empty on
entry; pending carries the previous chunk (page number, length, payload)
whose next pointer receives the page allocated in this step. -/
def allocateChainGo (payloadSize : Nat) (st : TreeSt) (remaining : ByteStr)
    (pending : Option (Nat × Nat × ByteStr)) (head : Nat) (fuel : Nat) :
    Except String (Nat × TreeSt) := do
  match fuel with
  | 0 => .error "fuel"
  | fuel + 1 =>
    let chunkLength := min payloadSize remaining.len
    let (pageNumber, st) ← allocatePage st
    let payload := remaining.btake chunkLength
    let st := match pending with
      | some (ppn, plen, ppay) => st.pageSet ppn (.overflow pageNumber plen ppay)
      | none => st
    let head := if head = 0 then pageNumber else head
    let remaining := remaining.bdrop chunkLength
    if remaining.len = 0 then
      let st := st.pageSet pageNumber (.overflow 0 chunkLength payload)
      return (head, st)
    else
      allocateChainGo payloadSize st remaining (some (pageNumber, chunkLength, payload)) head fuel

/-- OverflowManager.allocateChain: split the bytes into chunks of
pageSize - 16, allocate a page per chunk and link them; returns the head
page number, 0 for empty input. -/
def allocateChain (st : TreeSt) (data : ByteStr) (fuel : Nat) :
    Except String (Nat × TreeSt) := do
  if data.len = 0 then
    return (0, st)
  else
    let payloadSize := st.pageSize - OVERFLOW_HEADER_SIZE
    if payloadSize = 0 then
      .error "Overflow payload capacity must be positive"
    else
      allocateChainGo payloadSize st data none 0 fuel

/-- OverflowManager.readChain loop: follow next pointers collecting
payload bytes until totalLength bytes were copied or the chain ends. -/
def readChainGo (st : TreeSt) (totalLength : Nat) (cursor : Nat)
    (acc : ByteStr) (fuel : Nat) : Except String ByteStr := do
  match fuel with
  | 0 => .error "fuel"
  | fuel + 1 =>
    if cursor ≠ 0 ∧ acc.len < totalLength then
      match st.pageGet cursor with
      | .overflow next length payload =>
        let copyLength := min length (totalLength - acc.len)
        let acc := ByteStr.concatTo acc (payload.btake copyLength)
          (acc.len + copyLength)
        readChainGo st totalLength next acc fuel
      | _ => .error "Page is not an overflow page"
    else
      if acc.len ≠ totalLength then
        .error "Overflow chain truncated during read"
      else
        return acc

/-- OverflowManager.readChain: collect exactly totalLength bytes from
the chain rooted at head (deserializeOverflow is not present under src;
its layout is modelled from the spec: type byte, next u32 at offset 4,
length u32 at offset 8, payload from offset 16). -/
def readChain (st : TreeSt) (head totalLength : Nat) (fuel : Nat) :
    Except String ByteStr := do
  if head = 0 then
    return ByteStr.empty
  else
    readChainGo st totalLength head ByteStr.empty fuel

/-- OverflowManager.freeChain: walk the next pointers (a raw u32 read at
byte offset 4 of each page) pushing every page onto the free list. -/
def freeChain (st : TreeSt) (head : Nat) (fuel : Nat) : Except String TreeSt := do
  match fuel with
  | 0 => .error "fuel"
  | fuel + 1 =>
    if head = 0 then
      return st
    else
      let next := (st.pageGet head).u32at4
      let st ← freePage st head
      freeChain st next fuel

/-- The overflow chain starting at a head pointer: the page list the
successive u32-at-4 next pointers of the stored pages produce, each page
non-zero and in u32 range, ending when the next pointer is zero (the
chain readChain and freeChain walk). -/
def chainFrom (st : TreeSt) : Nat → List Nat → Bool
  | h, [] => h = 0
  | h, p :: rest =>
    decide (h = p) && decide (1 ≤ p) && decide (p < 2 ^ 32) &&
      chainFrom st ((st.pageGet p).u32at4) rest

/-- The free-list walk from a head page: the successive pages
allocate_page would pop, each linking to the next through the u32 at
offset 0 of the freed page. -/
def freeWalkGo (st : TreeSt) : Nat → Nat → List Nat
  | _, 0 => []
  | head, fuel + 1 =>
    if head = 0 then []
    else head :: freeWalkGo st ((st.pageGet head).u32at0) fuel

/-- The pages of the persistent free list, from meta.freePageHead. -/
def freeListPages (st : TreeSt) (fuel : Nat) : List Nat :=
  freeWalkGo st (readMeta st).freePageHead fuel

/-! Decoded page access (tree/pages.ts).  Loading checks the page-type
tag exactly as deserializeLeaf / deserializeInternal do; storing mirrors
the guards under which serializeLeaf / serializeInternal throw. -/

/-- Serialized size of one leaf cell
(BPlusTree.leafCellSerializedSize). -/
def leafCellSerializedSize (cell : LeafCell) : Nat :=
  12 + KEY_SIZE_BYTES + cell.inlineValue.len

/-- Serialized size of a leaf with the given cells
(BPlusTree.leafSerializedSize): header, one u16 slot pointer per cell,
and the cell records. -/
def leafSerializedSize (cells : List LeafCell) : Nat :=
  PAGE_HEADER_SIZE + cells.length * 2 +
    (cells.map leafCellSerializedSize).sum

/-- deserializeLeaf through the buffer pool: page-type check. -/
def loadLeaf (st : TreeSt) (pageNumber : Nat) : Except String LeafPage :=
  match st.pageGet pageNumber with
  | .leaf p => .ok p
  | _ => .error "Page is not a leaf"

/-- deserializeInternal through the buffer pool: page-type check. -/
def loadInternal (st : TreeSt) (pageNumber : Nat) : Except String InternalPage :=
  match st.pageGet pageNumber with
  | .internal p => .ok p
  | _ => .error "Page is not an internal node"

/-- serializeLeaf target write: fails when the cell count exceeds
MAX_LEAF_KEYS or when the packed cells would run into the slot-pointer
array (which the source detects once the serialized size reaches
pageSize + 2; at exactly pageSize + 1 the source silently overlaps one
byte, a corner never reached by the tree operations because they
re-split any leaf whose size exceeds pageSize).  Field-width guards
mirror bigintToBuffer and the writeUInt16/32 range checks. -/
def storeLeaf (st : TreeSt) (pageNumber : Nat) (p : LeafPage) :
    Except String TreeSt :=
  if p.cells.length > MAX_LEAF_KEYS then
    .error "Leaf page overflow"
  else if st.pageSize + 2 ≤ leafSerializedSize p.cells then
    .error "Leaf page overflow"
  else if p.rightSibling < 2 ^ 32 ∧
      p.cells.all (fun c => c.key < 2 ^ 64 ∧ c.inlineValue.len < 2 ^ 16 ∧
        c.valueLength < 2 ^ 32 ∧ c.overflowPage < 2 ^ 32) then
    .ok (st.pageSet pageNumber (.leaf p))
  else
    .error "leaf field out of range"

/-- serializeInternal target write: fails when the cell count exceeds
MAX_INTERNAL_KEYS, with field-width guards as for leaves, and an
out-of-range error where the fixed 12-byte cells would run past the end
of the page (the writeUInt32LE range check; unreachable at the default
page size, where 32 + 4 + 12 * MAX_INTERNAL_KEYS = 4092 <= 4096). -/
def storeInternal (st : TreeSt) (pageNumber : Nat) (p : InternalPage) :
    Except String TreeSt :=
  if p.cells.length > MAX_INTERNAL_KEYS then
    .error "Internal page overflow"
  else if st.pageSize <
      PAGE_HEADER_SIZE + INTERNAL_CHILD_POINTER_BYTES + 12 * p.cells.length then
    .error "internal write out of range"
  else if p.rightSibling < 2 ^ 32 ∧ p.leftChild < 2 ^ 32 ∧
      p.cells.all (fun c => c.key < 2 ^ 64 ∧ c.child < 2 ^ 32) then
    .ok (st.pageSet pageNumber (.internal p))
  else
    .error "internal field out of range"

/-! B+Tree operations (tree/bplusTree.ts, current version, together with
tree/internalRebalancer.ts).  A path entry is the in-memory copy of an
internal page along the descent, written back (release with dirty flag)
at the end of the mutating operation, exactly as the source does in its
finally blocks. -/

/-- In-memory copy of an internal page on the descent path
(tree/types.ts InternalPathEntry).  childIndex is the slot returned by
pickChildSlot and may be -1 (the leftChild position). -/
structure PathEntry where
  pageNumber : Nat
  page : InternalPage
  dirty : Bool
  childIndex : Int
  deriving DecidableEq, Repr

/-- Replace the last element of a list, if any. -/
def modifyLast (f : PathEntry → PathEntry) : List PathEntry → List PathEntry
  | [] => []
  | [e] => [f e]
  | e :: rest => e :: modifyLast f rest

/-- releaseInternal over the whole path (the finally blocks of set and
delete): write back each entry whose dirty flag is set. -/
def releasePath (st : TreeSt) : List PathEntry → Except String TreeSt
  | [] => .ok st
  | e :: rest => do
    let st ← if e.dirty then storeInternal st e.pageNumber e.page else .ok st
    releasePath st rest

/-- BPlusTree.pickChildSlot scan: walk the cells left to right carrying
the child seen so far; stop at the first cell whose key exceeds the
search key.  Returns the chosen (child, slot) or the last child if the
key is not below any separator. -/
def pickScan (key : Nat) : List InternalCell → Nat → Int → (Nat × Int) ⊕ Nat
  | [], child, _ => .inr child
  | c :: rest, child, i =>
    if key < c.key then .inl (child, i - 1) else pickScan key rest c.child (i + 1)

/-- BPlusTree.pickChildSlot: choose the child to descend into; when the
key is at least every separator and the page has a right sibling, move
to that sibling at the same level instead (the returned nextSibling). -/
def pickChildSlot (page : InternalPage) (key : Nat) :
    Nat × Int × Option Nat :=
  if page.cells.length = 0 then
    (page.leftChild, -1, none)
  else
    match pickScan key page.cells page.leftChild 0 with
    | .inl (child, slot) => (child, slot, none)
    | .inr child =>
      if page.rightSibling ≠ 0 then
        (page.rightSibling, (page.cells.length : Int) - 1, some page.rightSibling)
      else
        (child, (page.cells.length : Int) - 1, none)

/-- BPlusTree.traverseToLeaf loop body: descend while depth > 1,
following nextSibling moves at the same depth. -/
def traverseGo (st : TreeSt) (key : Nat) :
    Nat → Nat → Nat → List PathEntry →
    Except String (List PathEntry × Nat × LeafPage)
  | 0, _, _, _ => .error "fuel"
  | fuel + 1, pageNumber, depth, path =>
    if depth > 1 then do
      let p ← loadInternal st pageNumber
      let (child, slot, nextSibling) := pickChildSlot p key
      match nextSibling with
      | some ns => traverseGo st key fuel ns depth path
      | none =>
        let entry : PathEntry := ⟨pageNumber, p, false, slot⟩
        traverseGo st key fuel child (depth - 1) (path ++ [entry])
    else do
      let leaf ← loadLeaf st pageNumber
      return (path, pageNumber, leaf)

/-- BPlusTree.traverseToLeaf: from the root down to the leaf that the
search reaches, collecting the internal path. -/
def traverseToLeaf (st : TreeSt) (key : Nat) (fuel : Nat) :
    Except String (List PathEntry × Nat × LeafPage) :=
  let meta := readMeta st
  traverseGo st key fuel meta.rootPage meta.treeDepth []

/-- BPlusTree.mutateMeta: read the meta page, apply the mutation, write
it back. -/
def mutateMeta (st : TreeSt) (f : MetaPage → MetaPage) : Except String TreeSt :=
  writeMeta st (f (readMeta st))

/-- BPlusTree.maxInlineValueBytes: inline capacity of a leaf cell. -/
def maxInlineValueBytes (pageSize : Nat) : Nat :=
  pageSize - (PAGE_HEADER_SIZE + 2 + KEY_SIZE_BYTES + 12)

/-- Modelled from the spec: utils/codec.ts normalizeValueInput.  The
current codec is not under src (the file present is a stale revision
that pads every value to a VALUE_SIZE_BYTES constant which the current
constants.ts no longer defines, and it lacks the ValueSerializer
exports the current tree imports).  Per the spec the value is an
arbitrary byte string whose full length and bytes are preserved
verbatim, with a u32 bound on the total length (ValueTooLarge); the
current unit test expects an equal copy.  Hence: identity copy with the
u32 length guard. -/
def normalizeValueInput (value : ByteStr) : Except String ByteStr :=
  if value.len < 2 ^ 32 then .ok value else .error "value too large"

/-- BPlusTree.prepareLeafCell: split the value into the inline head and
an overflow chain for the remainder. -/
def prepareLeafCell (st : TreeSt) (key : Nat) (value : ByteStr) (fuel : Nat) :
    Except String (LeafCell × TreeSt) := do
  let inlineLimit := maxInlineValueBytes st.pageSize
  let inlineLength := min value.len inlineLimit
  let inlineValue := value.btake inlineLength
  let remainder := value.bdrop inlineLength
  let (overflowPage, st) ←
    if remainder.len > 0 then allocateChain st remainder fuel else .ok (0, st)
  return (⟨key, inlineValue, value.len, overflowPage⟩, st)

/-- BPlusTree.materializeCellValue: the inline bytes, plus the overflow
remainder when the chain head is set, assembled to the total length. -/
def materializeCellValue (st : TreeSt) (cell : LeafCell) (fuel : Nat) :
    Except String ByteStr := do
  if cell.overflowPage = 0 then
    return cell.inlineValue
  else
    if cell.valueLength < cell.inlineValue.len then
      .error "negative remainder length"
    else do
      let remainder ← readChain st cell.overflowPage
        (cell.valueLength - cell.inlineValue.len) fuel
      return ByteStr.concatTo cell.inlineValue remainder cell.valueLength

/-- BPlusTree.insertIntoLeaf: insert in sorted position (first index
whose key is not below the new key); returns the index used. -/
def insertIntoLeaf (page : LeafPage) (cell : LeafCell) : Nat × LeafPage :=
  let idx := (page.cells.takeWhile (fun c => c.key < cell.key)).length
  (idx, { page with cells := page.cells.take idx ++ cell :: page.cells.drop idx })

/-- BPlusTree.insertIntoInternal: insert a separator in sorted
position. -/
def insertIntoInternal (page : InternalPage) (key child : Nat) : InternalPage :=
  let idx := (page.cells.takeWhile (fun c => c.key < key)).length
  { page with cells := page.cells.take idx ++ ⟨key, child⟩ :: page.cells.drop idx }

/-- BPlusTree.updateParentKeyForLeaf: copy the first key of the leaf
into the parent separator at the given slot (no-op for slot -1, an
empty leaf, or a slot outside the cells). -/
def updateParentKeyForLeaf (parent : PathEntry) (slot : Int) (leaf : LeafPage) :
    PathEntry :=
  if slot < 0 then parent
  else
    match leaf.cells.head? with
    | none => parent
    | some first =>
      let s := slot.toNat
      match parent.page.cells[s]? with
      | none => parent
      | some parentCell =>
        { parent with
          page := { parent.page with
            cells := parent.page.cells.set s { parentCell with key := first.key } }
          dirty := true }

/-- BPlusTree.removeParentCell: remove the separator at the index, when
in range. -/
def removeParentCell (parent : PathEntry) (index : Int) : PathEntry :=
  if index < 0 ∨ (parent.page.cells.length : Int) ≤ index then parent
  else
    { parent with
      page := { parent.page with cells := parent.page.cells.eraseIdx index.toNat }
      dirty := true }

/-- BPlusTree.childPageNumber: the page of the child at the slot, where
slot -1 addresses leftChild. -/
def childPageNumber (page : InternalPage) (slot : Int) : Option Nat :=
  if slot < -1 ∨ (page.cells.length : Int) - 1 < slot then none
  else if slot = -1 then some page.leftChild
  else
    match page.cells[slot.toNat]? with
    | some cell => some cell.child
    | none => none

/-- BPlusTree.splitLeaf split-index loop: accumulate cell sizes from the
page header until half of the serialized total is reached, stopping
before the last cell at the latest (the loop runs while
splitIndex < cells.length - 1).  The source compares against
totalSize / 2 as a JS float; the comparison is taken doubled to stay in
integers. -/
def splitIndexGo (totalSize : Nat) : List LeafCell → Nat → Nat → Nat
  | [], i, _ => i
  | [_], i, _ => i
  | cell :: next :: rest, i, accumulated =>
    let cellSize := leafCellSerializedSize cell
    if totalSize ≤ 2 * (accumulated + cellSize) then i
    else splitIndexGo totalSize (next :: rest) (i + 1) (accumulated + cellSize)

/-- BPlusTree.splitLeaf split-index scan entry point. -/
def splitIndexScan (cells : List LeafCell) (totalSize : Nat) : Nat :=
  splitIndexGo totalSize cells 0 PAGE_HEADER_SIZE

/-- BPlusTree.splitLeaf: move the upper cells to a freshly allocated
sibling which inherits the old right sibling; the old leaf points to the
new one.  Returns the promoted key (first key of the sibling) and the
sibling page. -/
def splitLeaf (st : TreeSt) (leaf : LeafPage) :
    Except String (Nat × Nat × LeafPage × TreeSt) := do
  let totalSize := leafSerializedSize leaf.cells
  let splitIndex := splitIndexScan leaf.cells totalSize
  let siblingCells := leaf.cells.drop (splitIndex + 1)
  let leftCells := leaf.cells.take (splitIndex + 1)
  let (siblingPageNumber, st) ← allocatePage st
  let siblingPage : LeafPage := ⟨leaf.rightSibling, siblingCells⟩
  let leaf : LeafPage := ⟨siblingPageNumber, leftCells⟩
  let st ← storeLeaf st siblingPageNumber siblingPage
  match siblingCells.head? with
  | none => .error "Leaf split produced empty sibling"
  | some first => return (first.key, siblingPageNumber, leaf, st)

/-- BPlusTree.splitInternal: split at ceil(n/2) - 1 with the median
promoted; the right part receives the promoted cell's child as its
leftChild and inherits the right sibling. -/
def splitInternal (st : TreeSt) (entry : PathEntry) :
    Except String (Nat × Nat × PathEntry × TreeSt) := do
  let midpoint := (entry.page.cells.length + 1) / 2 - 1
  match entry.page.cells[midpoint]? with
  | none => .error "Internal page split failed"
  | some promote =>
    let rightCells := entry.page.cells.drop (midpoint + 1)
    let (rightPageNumber, st) ← allocatePage st
    let rightPage : InternalPage := ⟨entry.page.rightSibling, promote.child, rightCells⟩
    let entry : PathEntry :=
      { entry with
        page := { entry.page with
          rightSibling := rightPageNumber
          cells := entry.page.cells.take midpoint }
        dirty := true }
    let st ← storeInternal st rightPageNumber rightPage
    return (promote.key, rightPageNumber, entry, st)

/-- BPlusTree.createNewRoot: allocate a page holding the old root as
leftChild and the promoted (key, child); point the meta at it and deepen
the tree. -/
def createNewRoot (st : TreeSt) (key rightChild : Nat) : Except String TreeSt := do
  let (newRootPageNumber, st) ← allocatePage st
  let rootPage : InternalPage := ⟨0, (readMeta st).rootPage, [⟨key, rightChild⟩]⟩
  let st ← storeInternal st newRootPageNumber rootPage
  mutateMeta st fun meta =>
    { meta with rootPage := newRootPageNumber, treeDepth := meta.treeDepth + 1 }

/-- BPlusTree.propagateSplit: walk the path from the leaf upward,
inserting the promoted separator; split any internal page that exceeds
MAX_INTERNAL_KEYS; create a new root if the propagation passes the
root.  Processes the reversed path, rebuilding the updated path. -/
def propagateSplitGo (st : TreeSt) :
    List PathEntry → Nat → Nat → List PathEntry →
    Except String (TreeSt × List PathEntry)
  | [], key, child, acc => do
    let st ← createNewRoot st key child
    return (st, acc)
  | entry :: rest, key, child, acc => do
    let entry := { entry with page := insertIntoInternal entry.page key child, dirty := true }
    if entry.page.cells.length ≤ MAX_INTERNAL_KEYS then
      return (st, rest.reverse ++ entry :: acc)
    else do
      let (promoteKey, promoteChild, entry, st) ← splitInternal st entry
      propagateSplitGo st rest promoteKey promoteChild (entry :: acc)

/-- BPlusTree.propagateSplit on a path in root-first order. -/
def propagateSplit (st : TreeSt) (path : List PathEntry) (key rightPageNumber : Nat) :
    Except String (TreeSt × List PathEntry) :=
  propagateSplitGo st path.reverse key rightPageNumber []

/-- The while loop of BPlusTree.insertKeyValue: split the leaf while its
serialized size exceeds the page size, propagating each split. -/
def insertSplitLoop (st : TreeSt) (leafPage : Nat) (leaf : LeafPage)
    (path : List PathEntry) : Nat → Except String (TreeSt × LeafPage × List PathEntry)
  | 0 => .error "fuel"
  | fuel + 1 => do
    if leafSerializedSize leaf.cells > st.pageSize then
      let (key, sibling, leaf, st) ← splitLeaf st leaf
      let (st, path) ← propagateSplit st path key sibling
      insertSplitLoop st leafPage leaf path fuel
    else
      return (st, leaf, path)

/-- BPlusTree.insertKeyValue: overwrite in place when the key exists in
the reached leaf (freeing the previous overflow chain), otherwise insert
in sorted order, update the parent separator when the key became the
leaf minimum, split while oversized, and bump keyCount. -/
def insertKeyValue (st : TreeSt) (key : Nat) (normalizedValue : ByteStr)
    (fuel : Nat) : Except String TreeSt := do
  let (path, leafPN, leaf) ← traverseToLeaf st key fuel
  match leaf.cells.findIdx? (fun c => c.key = key) with
  | some existingIndex => do
    let st ← match leaf.cells[existingIndex]? with
      | some previous => freeChain st previous.overflowPage fuel
      | none => .ok st
    let (cell, st) ← prepareLeafCell st key normalizedValue fuel
    let leaf := { leaf with cells := leaf.cells.set existingIndex cell }
    let st ← storeLeaf st leafPN leaf
    releasePath st path
  | none => do
    let (cell, st) ← prepareLeafCell st key normalizedValue fuel
    let (insertIndex, leaf) := insertIntoLeaf leaf cell
    let path :=
      if insertIndex = 0 then
        modifyLast (fun parent => updateParentKeyForLeaf parent parent.childIndex leaf) path
      else path
    let (st, leaf, path) ← insertSplitLoop st leafPN leaf path fuel
    let st ← storeLeaf st leafPN leaf
    let st ← mutateMeta st fun meta => { meta with keyCount := meta.keyCount + 1 }
    releasePath st path

/-- BPlusTree.set: key-width check from normalizeKeyInput and
bigintToBuffer, value normalization, then insertKeyValue.  The periodic
checkpoint hook is a no-op at the default configuration
(checkpointIntervalOps = 0). -/
def set (st : TreeSt) (key : Nat) (value : ByteStr) (fuel : Nat) :
    Except String TreeSt := do
  if key < 2 ^ 64 then
    let normalizedValue ← normalizeValueInput value
    insertKeyValue st key normalizedValue fuel
  else
    .error "Key too large to fit in 64 bits"

/-- BPlusTree.get: traverse to the leaf the search reaches and look the
key up among its cells; absent keys give none. -/
def get (st : TreeSt) (key : Nat) (fuel : Nat) :
    Except String (Option ByteStr) := do
  if key < 2 ^ 64 then
    let (_, _, leaf) ← traverseToLeaf st key fuel
    match leaf.cells.find? (fun c => c.key = key) with
    | none => return none
    | some cell => do
      let v ← materializeCellValue st cell fuel
      return some v
  else
    .error "Key too large to fit in 64 bits"

/-- Result of BPlusTree.rebalanceLeafAfterDelete: the (possibly
replaced) current leaf, its dirty flag, and the updated path. -/
structure LeafRebalanceResult where
  st : TreeSt
  leafPN : Nat
  leaf : LeafPage
  dirty : Bool
  path : List PathEntry

/-- BPlusTree.rebalanceLeafAfterDelete: below the root, after removing
a cell, refresh the parent separator when the leaf is still at least
half full; otherwise try borrowing a cell from the left then the right
sibling when the result still fits a page, and finally merge with the
left (preferred) or right sibling, freeing the emptied page and its
parent separator. -/
def rebalanceLeafAfterDelete (st : TreeSt) (leafPN : Nat) (leaf : LeafPage)
    (path : List PathEntry) (dirty : Bool) : Except String LeafRebalanceResult := do
  if (readMeta st).treeDepth = 1 then
    return ⟨st, leafPN, leaf, dirty, path⟩
  else
    match path.getLast? with
    | none => return ⟨st, leafPN, leaf, dirty, path⟩
    | some parent => do
      let minKeys := max 1 MIN_LEAF_KEYS
      if minKeys ≤ leaf.cells.length then
        let path := modifyLast (fun p => updateParentKeyForLeaf p p.childIndex leaf) path
        return ⟨st, leafPN, leaf, dirty, path⟩
      else do
        let leftSlot := parent.childIndex - 1
        let leftPageNumber := childPageNumber parent.page leftSlot
        let tryLeft : Except String (Option LeafRebalanceResult) := do
          match leftPageNumber with
          | none => return none
          | some lpn => do
            let leftLeaf ← loadLeaf st lpn
            if MIN_LEAF_KEYS < leftLeaf.cells.length then
              match leftLeaf.cells.getLast? with
              | none => return none
              | some borrowed =>
                let candidateSize := leafSerializedSize (borrowed :: leaf.cells)
                if candidateSize ≤ st.pageSize then do
                  let leaf := { leaf with cells := borrowed :: leaf.cells }
                  let path := modifyLast
                    (fun p => updateParentKeyForLeaf p p.childIndex leaf) path
                  let st ← storeLeaf st lpn
                    { leftLeaf with cells := leftLeaf.cells.dropLast }
                  return some ⟨st, leafPN, leaf, true, path⟩
                else return none
            else return none
        match ← tryLeft with
        | some r => return r
        | none => do
          let rightSlot := parent.childIndex + 1
          let rightPageNumber := childPageNumber parent.page rightSlot
          let tryRight : Except String (Option LeafRebalanceResult) := do
            match rightPageNumber with
            | none => return none
            | some rpn => do
              let rightLeaf ← loadLeaf st rpn
              if MIN_LEAF_KEYS < rightLeaf.cells.length then
                match rightLeaf.cells.head? with
                | none => return none
                | some borrowed =>
                  let candidateSize := leafSerializedSize (leaf.cells ++ [borrowed])
                  if candidateSize ≤ st.pageSize then do
                    let leaf := { leaf with cells := leaf.cells ++ [borrowed] }
                    let rightLeaf := { rightLeaf with cells := rightLeaf.cells.tail }
                    let path := modifyLast
                      (fun p => updateParentKeyForLeaf p rightSlot rightLeaf) path
                    let path := modifyLast
                      (fun p => updateParentKeyForLeaf p p.childIndex leaf) path
                    let st ← storeLeaf st rpn rightLeaf
                    return some ⟨st, leafPN, leaf, true, path⟩
                  else return none
              else return none
          match ← tryRight with
          | some r => return r
          | none => do
            let tryMergeLeft : Except String (Option LeafRebalanceResult) := do
              match leftPageNumber with
              | none => return none
              | some lpn => do
                let leftLeaf ← loadLeaf st lpn
                let mergedSize := leafSerializedSize (leftLeaf.cells ++ leaf.cells)
                if mergedSize ≤ st.pageSize then do
                  let leftLeaf := { leftLeaf with
                    cells := leftLeaf.cells ++ leaf.cells
                    rightSibling := leaf.rightSibling }
                  let st ← freePage st leafPN
                  let path := modifyLast (fun p =>
                    let p := removeParentCell p p.childIndex
                    let p := { p with childIndex := leftSlot }
                    updateParentKeyForLeaf p leftSlot leftLeaf) path
                  return some ⟨st, lpn, leftLeaf, true, path⟩
                else return none
            match ← tryMergeLeft with
            | some r => return r
            | none => do
              match rightPageNumber with
              | none => return ⟨st, leafPN, leaf, dirty, path⟩
              | some rpn => do
                let rightLeaf ← loadLeaf st rpn
                let mergedSize := leafSerializedSize (leaf.cells ++ rightLeaf.cells)
                if mergedSize ≤ st.pageSize then do
                  let leaf := { leaf with
                    cells := leaf.cells ++ rightLeaf.cells
                    rightSibling := rightLeaf.rightSibling }
                  let st ← freePage st rpn
                  let path := modifyLast (fun p =>
                    let p := removeParentCell p rightSlot
                    updateParentKeyForLeaf p p.childIndex leaf) path
                  return ⟨st, leafPN, leaf, true, path⟩
                else
                  return ⟨st, leafPN, leaf, dirty, path⟩

/-- internalRebalancer.ts borrowFromLeft: rotate through the parent
separator; the separator descends to the front of the entry, the left
sibling's last child becomes the entry's leftChild, and the sibling's
last key becomes the separator. -/
def borrowFromLeft (st : TreeSt) (path : List PathEntry) (i : Nat)
    (entry parent : PathEntry) (slot : Int) :
    Except String (Option (TreeSt × List PathEntry)) := do
  if slot < 0 then return none
  else
    match childPageNumber parent.page (slot - 1) with
    | none => return none
    | some leftPageNumber => do
      let left ← loadInternal st leftPageNumber
      if left.cells.length ≤ MIN_INTERNAL_KEYS then return none
      else
        match parent.page.cells[slot.toNat]?, left.cells.getLast? with
        | some separator, some borrowed => do
          let entry := { entry with
            page := { entry.page with
              leftChild := borrowed.child
              cells := ⟨separator.key, entry.page.leftChild⟩ :: entry.page.cells }
            dirty := true }
          let parent := { parent with
            page := { parent.page with
              cells := parent.page.cells.set slot.toNat { separator with key := borrowed.key } }
            dirty := true }
          let st ← storeInternal st leftPageNumber
            { left with cells := left.cells.dropLast }
          return some (st, (path.set i entry).set (i - 1) parent)
        | _, _ => return none

/-- internalRebalancer.ts borrowFromRight: symmetric rotation with the
right sibling. -/
def borrowFromRight (st : TreeSt) (path : List PathEntry) (i : Nat)
    (entry parent : PathEntry) (slot : Int) :
    Except String (Option (TreeSt × List PathEntry)) := do
  let rightSlot := slot + 1
  if (parent.page.cells.length : Int) - 1 < rightSlot then return none
  else
    match childPageNumber parent.page rightSlot with
    | none => return none
    | some rightPageNumber => do
      let right ← loadInternal st rightPageNumber
      if right.cells.length ≤ MIN_INTERNAL_KEYS then return none
      else
        match parent.page.cells[rightSlot.toNat]?, right.cells.head? with
        | some separator, some shifted => do
          let movedChild := right.leftChild
          let entry := { entry with
            page := { entry.page with
              cells := entry.page.cells ++ [⟨separator.key, movedChild⟩] }
            dirty := true }
          let parent := { parent with
            page := { parent.page with
              cells := parent.page.cells.set rightSlot.toNat
                { separator with key := shifted.key } }
            dirty := true }
          let right := { right with leftChild := shifted.child, cells := right.cells.tail }
          let st ← storeInternal st rightPageNumber right
          return some (st, (path.set i entry).set (i - 1) parent)
        | _, _ => return none

/-- internalRebalancer.ts mergeWithLeft: concatenate into the left
sibling with the parent separator as glue, free the entry page, shift
the parent slot left; the path entry is redirected at the left page and
written back dirty when the operation releases the path. -/
def mergeWithLeft (st : TreeSt) (path : List PathEntry) (i : Nat)
    (entry parent : PathEntry) (slot : Int) (leftPageNumber : Nat) :
    Except String (TreeSt × List PathEntry) := do
  let left ← loadInternal st leftPageNumber
  match parent.page.cells[slot.toNat]? with
  | none => return (st, path)
  | some parentKey => do
    let left := { left with
      cells := left.cells ++ ⟨parentKey.key, entry.page.leftChild⟩ :: entry.page.cells
      rightSibling := entry.page.rightSibling }
    let parent := removeParentCell parent slot
    let parent := { parent with childIndex := slot - 1 }
    let st ← freePage st entry.pageNumber
    let entry : PathEntry := ⟨leftPageNumber, left, true, slot - 1⟩
    return (st, (path.set i entry).set (i - 1) parent)

/-- internalRebalancer.ts mergeWithRight: concatenate the right sibling
into the entry with the parent separator as glue and free the right
page. -/
def mergeWithRight (st : TreeSt) (path : List PathEntry) (i : Nat)
    (entry parent : PathEntry) (slot : Int) (rightPageNumber : Nat) :
    Except String (TreeSt × List PathEntry) := do
  let right ← loadInternal st rightPageNumber
  match parent.page.cells[(slot + 1).toNat]? with
  | none => return (st, path)
  | some parentKey => do
    let entry := { entry with
      page := { entry.page with
        cells := entry.page.cells ++ ⟨parentKey.key, right.leftChild⟩ :: right.cells
        rightSibling := right.rightSibling }
      dirty := true }
    let parent := removeParentCell parent (slot + 1)
    let st ← freePage st rightPageNumber
    return (st, (path.set i entry).set (i - 1) parent)

/-- internalRebalancer.ts mergeInternal: merge with the left sibling
when one exists, otherwise with the right; no sibling at all is an
error. -/
def mergeInternal (st : TreeSt) (path : List PathEntry) (i : Nat)
    (entry parent : PathEntry) (slot : Int) :
    Except String (TreeSt × List PathEntry) := do
  match if 0 ≤ slot then childPageNumber parent.page (slot - 1) else none with
  | some leftPageNumber => mergeWithLeft st path i entry parent slot leftPageNumber
  | none =>
    match childPageNumber parent.page (slot + 1) with
    | none => .error "Internal merge failed: no siblings available"
    | some rightPageNumber => mergeWithRight st path i entry parent slot rightPageNumber

/-- internalRebalancer.ts rebalanceInternalEntry: borrow from the left,
then from the right, then merge. -/
def rebalanceInternalEntry (st : TreeSt) (path : List PathEntry) (i : Nat) :
    Except String (TreeSt × List PathEntry) := do
  if i = 0 then return (st, path)
  else
    match path[i]?, path[i - 1]? with
    | some entry, some parent => do
      let slot := parent.childIndex
      match ← borrowFromLeft st path i entry parent slot with
      | some r => return r
      | none => do
        match ← borrowFromRight st path i entry parent slot with
        | some r => return r
        | none => mergeInternal st path i entry parent slot
    | _, _ => return (st, path)

/-- internalRebalancer.ts shrinkRootIfNeeded: a root left without cells
promotes its leftChild, the tree loses a level, the old root page is
freed and the path is discarded.  Returns whether the rebalance loop
should stop (the tree is back to a single level). -/
def shrinkRootIfNeeded (st : TreeSt) (path : List PathEntry)
    (rootEntry : PathEntry) : Except String (Bool × TreeSt × List PathEntry) := do
  if (readMeta st).treeDepth ≤ 1 then return (false, st, path)
  else if 0 < rootEntry.page.cells.length then return (false, st, path)
  else
    let newRootPageNumber := rootEntry.page.leftChild
    if newRootPageNumber = 0 then return (false, st, path)
    else do
      let st ← mutateMeta st fun m =>
        { m with rootPage := newRootPageNumber, treeDepth := m.treeDepth - 1 }
      let st ← freePage st rootEntry.pageNumber
      return ((readMeta st).treeDepth = 1, st, ([] : List PathEntry))

/-- internalRebalancer.ts rebalanceInternalPath loop, walking the path
indices from the deepest entry up to the root (k is the number of
indices still to visit, so the current index is k - 1). -/
def rebalanceInternalPathGo (st : TreeSt) (path : List PathEntry) :
    Nat → Except String (TreeSt × List PathEntry)
  | 0 => return (st, path)
  | k + 1 => do
    let i := k
    match path[i]? with
    | none => rebalanceInternalPathGo st path k
    | some entry =>
      let minKeys := if i = 0 then 1 else MIN_INTERNAL_KEYS
      if minKeys ≤ entry.page.cells.length then
        rebalanceInternalPathGo st path k
      else if i = 0 then do
        let (shrunk, st, path) ← shrinkRootIfNeeded st path entry
        if shrunk then return (st, path)
        else rebalanceInternalPathGo st path k
      else do
        let (st, path) ← rebalanceInternalEntry st path i
        rebalanceInternalPathGo st path k

/-- internalRebalancer.ts rebalanceInternalPath. -/
def rebalanceInternalPath (st : TreeSt) (path : List PathEntry) :
    Except String (TreeSt × List PathEntry) :=
  rebalanceInternalPathGo st path path.length

/-- BPlusTree.delete: look the key up in the reached leaf; when absent
return false.  Otherwise remove its cell, free its overflow chain,
refresh the parent separator when the minimum changed, decrement
keyCount, rebalance the leaf level then the internal path, and write
back the touched pages. -/
def delete (st : TreeSt) (key : Nat) (fuel : Nat) :
    Except String (Bool × TreeSt) := do
  if key < 2 ^ 64 then
    let (path, leafPN, leaf) ← traverseToLeaf st key fuel
    match leaf.cells.findIdx? (fun c => c.key = key) with
    | none => do
      let st ← releasePath st path
      return (false, st)
    | some idx => do
      let removed := leaf.cells[idx]?
      let leaf := { leaf with cells := leaf.cells.eraseIdx idx }
      let st ← (match removed with
        | some cell => freeChain st cell.overflowPage fuel
        | none => Except.ok st)
      let path :=
        if idx = 0 ∧ leaf.cells.length > 0 then
          modifyLast (fun p => updateParentKeyForLeaf p p.childIndex leaf) path
        else path
      let st ← mutateMeta st fun m => { m with keyCount := m.keyCount - 1 }
      let r ← rebalanceLeafAfterDelete st leafPN leaf path true
      let (st, path) ← rebalanceInternalPath r.st r.path
      let st ← if r.dirty then storeLeaf st r.leafPN r.leaf else .ok st
      let st ← releasePath st path
      return (true, st)
  else
    .error "Key too large to fit in 64 bits"

/-- One leaf of a range scan: yield the cells with keys in the interval,
or signal that a key beyond the end was seen (the generator returns). -/
def rangeCells (st : TreeSt) (startKey endKey : Nat) (fuel : Nat) :
    List LeafCell → List (Nat × ByteStr) →
    Except String (List (Nat × ByteStr) ⊕ List (Nat × ByteStr))
  | [], acc => .ok (.inr acc)
  | cell :: rest, acc =>
    if cell.key < startKey then rangeCells st startKey endKey fuel rest acc
    else if endKey < cell.key then .ok (.inl acc)
    else do
      let v ← materializeCellValue st cell fuel
      rangeCells st startKey endKey fuel rest (acc ++ [(cell.key, v)])

/-- The leaf-chain walk of BPlusTree.range. -/
def rangeGo (st : TreeSt) (startKey endKey : Nat) :
    Nat → LeafPage → List (Nat × ByteStr) →
    Except String (List (Nat × ByteStr))
  | 0, _, _ => .error "fuel"
  | fuel + 1, leaf, acc => do
    match ← rangeCells st startKey endKey fuel leaf.cells acc with
    | .inl acc => return acc
    | .inr acc =>
      if leaf.rightSibling = 0 then return acc
      else do
        let next ← loadLeaf st leaf.rightSibling
        rangeGo st startKey endKey fuel next acc

/-- BPlusTree.range: empty when the end is below the start, otherwise
traverse to the leaf the start key reaches and walk the sibling chain,
yielding pairs until a key exceeds the end.  The program yields the key
as its 8-byte big-endian encoding; the model yields the decoded key. -/
def range (st : TreeSt) (startKey endKey : Nat) (fuel : Nat) :
    Except String (List (Nat × ByteStr)) := do
  if startKey < 2 ^ 64 ∧ endKey < 2 ^ 64 then
    if endKey < startKey then return []
    else do
      let (_, _, leaf) ← traverseToLeaf st startKey fuel
      rangeGo st startKey endKey fuel leaf []
  else
    .error "Key too large to fit in 64 bits"

/-- The leaf-chain walk of BPlusTree.collectAllEntries. -/
def collectGo (st : TreeSt) : Nat → LeafPage → List (Nat × ByteStr) →
    Except String (List (Nat × ByteStr))
  | 0, _, _ => .error "fuel"
  | fuel + 1, leaf, acc => do
    let acc ← leaf.cells.foldlM (fun acc cell => do
      let v ← materializeCellValue st cell fuel
      return acc ++ [(cell.key, v)]) acc
    if leaf.rightSibling = 0 then return acc
    else do
      let next ← loadLeaf st leaf.rightSibling
      collectGo st fuel next acc

/-- The leftmost descent of BPlusTree.collectAllEntries. -/
def leftmostLeaf (st : TreeSt) : Nat → Nat → Except String LeafPage
  | pageNumber, 0 => loadLeaf st pageNumber
  | pageNumber, depth + 1 =>
    if depth + 1 > 1 then do
      let p ← loadInternal st pageNumber
      leftmostLeaf st p.leftChild depth
    else loadLeaf st pageNumber

/-- BPlusTree.collectAllEntries: every (key, value) pair in the store,
by descending to the leftmost leaf and walking the sibling chain. -/
def collectAllEntries (st : TreeSt) (fuel : Nat) :
    Except String (List (Nat × ByteStr)) := do
  let meta := readMeta st
  let leaf ← leftmostLeaf st meta.rootPage meta.treeDepth
  collectGo st fuel leaf []

/-- BPlusTree.validateNode: fail on a revisited page (cycle), expect a
leaf at depth 1 and an internal page above, recursing into leftChild
and every cell child with the visited set threaded through. -/
def validateNode (st : TreeSt) : Nat → Nat → Int → List Nat →
    Except String (List Nat)
  | 0, _, _, _ => .error "fuel"
  | fuel + 1, pageNumber, depth, visited => do
    if pageNumber ∈ visited then
      .error "Cycle detected"
    else
      let visited := pageNumber :: visited
      if depth = 1 then do
        let _ ← loadLeaf st pageNumber
        return visited
      else do
        let internal ← loadInternal st pageNumber
        (internal.leftChild :: internal.cells.map (·.child)).foldlM
          (fun visited child => validateNode st fuel child (depth - 1) visited)
          visited

/-- BPlusTree.consistencyCheck: run validateNode from the root; the
function returns true whenever validation does not raise. -/
def consistencyCheck (st : TreeSt) (fuel : Nat) : Except String Bool := do
  let meta := readMeta st
  let _ ← validateNode st fuel meta.rootPage (meta.treeDepth : Int) []
  return true

/-! Concrete states for the counterexample evaluations.

A fresh store (PageManager.initialize on a new file at the default page
size): meta on page 0, page 1 reserved, the empty root leaf on page 2. -/

/-- Fresh store produced by PageManager.initialize. -/
def freshStore : TreeSt :=
  ⟨4096, fun n =>
    if n = 0 then .meta ⟨4096, 2, 1, 3, 0, 0⟩
    else if n = 2 then .leaf ⟨0, []⟩
    else .freePg 0⟩

/-- A 2011-byte all-zero value.  Two cells of this size serialize to
4098 bytes, one past a page, so every leaf holding two such cells
splits; one cell fits. -/
def bigValue : ByteStr := ⟨2011, 0⟩

/-- Root separators of fullRootSt: cell (k, page of the leaf holding k)
for k = 2 .. 339, with the leaf holding key 2 on page 3 and the leaf
holding key k on page k + 2 for k >= 3; 338 cells, exactly
MAX_INTERNAL_KEYS, so the next propagated separator splits the root. -/
def rootCells339 : List InternalCell :=
  ⟨2, 3⟩ :: (List.range 337).map (fun i => ⟨i + 3, i + 5⟩)

/-- The store after set(k, bigValue) for k = 1 .. 339 on a fresh store:
depth 2, a root with 338 separators, and 339 single-cell leaves chained
left to right.  This state is reproduced byte for byte by folding set
over the keys 1 .. 339 starting from freshStore (checked by evaluation;
the explicit form is used so that each theorem only has to evaluate the
final operations). -/
def fullRootSt : TreeSt :=
  ⟨4096, fun n =>
    if n = 0 then .meta ⟨4096, 4, 2, 342, 339, 0⟩
    else if n = 2 then .leaf ⟨3, [⟨1, bigValue, 2011, 0⟩]⟩
    else if n = 3 then .leaf ⟨5, [⟨2, bigValue, 2011, 0⟩]⟩
    else if n = 4 then .internal ⟨0, 2, rootCells339⟩
    else if 5 ≤ n ∧ n ≤ 341 then
      .leaf ⟨if n = 341 then 0 else n + 1, [⟨n - 2, bigValue, 2011, 0⟩]⟩
    else .freePg 0⟩

/-- Root separators of fullRootStepSt: as rootCells339 with every key
scaled by ten (keys 20, 30, .., 3390). -/
def rootCells339s : List InternalCell :=
  ⟨20, 3⟩ :: (List.range 337).map (fun i => ⟨10 * (i + 3), i + 5⟩)

/-- The store after set(k, bigValue) for k = 10, 20, .. 3390 on a fresh
store (reproduced by folding set over those keys; checked by
evaluation).  The key gaps leave room to insert a fresh key whose
promoted separator lands at index 168 of the root, which the root split
then makes the last separator of the left half. -/
def fullRootStepSt : TreeSt :=
  ⟨4096, fun n =>
    if n = 0 then .meta ⟨4096, 4, 2, 342, 339, 0⟩
    else if n = 2 then .leaf ⟨3, [⟨10, bigValue, 2011, 0⟩]⟩
    else if n = 3 then .leaf ⟨5, [⟨20, bigValue, 2011, 0⟩]⟩
    else if n = 4 then .internal ⟨0, 2, rootCells339s⟩
    else if 5 ≤ n ∧ n ≤ 341 then
      .leaf ⟨if n = 341 then 0 else n + 1, [⟨10 * (n - 2), bigValue, 2011, 0⟩]⟩
    else .freePg 0⟩

/-- The store after one more set, of key 340, on fullRootSt: the last
leaf splits, the promoted separator 340 overfills the root, the root
splits at midpoint index 169 promoting separator 171, and a new root is
created.  The left root half now ends with separator 170 and has the
right half as its sibling, so every later traversal of key 170 moves
right past the leaf that holds it. -/
def afterSet340 : Except String TreeSt := set fullRootSt 340 bigValue 99

/-- One set of the fresh key 1695 on fullRootStepSt: the separator 1695
is promoted into the root at index 168, the root splits, and 1695
becomes the last separator of the left half, so the traversal of key
1695 itself now moves right past its leaf. -/
def afterStepSet : Except String TreeSt := set fullRootStepSt 1695 bigValue 99

/-- A second, identical set of key 1695 after afterStepSet. -/
def afterStepSetTwice : Except String TreeSt :=
  afterStepSet.bind fun st => set st 1695 bigValue 99

/-- The exact success condition of writeMeta: every meta field fits its
fixed-width slot. -/
def metaFits (m : MetaPage) : Prop :=
  m.pageSize < 2 ^ 32 ∧ m.rootPage < 2 ^ 32 ∧ m.treeDepth < 2 ^ 32 ∧
    m.totalPages < 2 ^ 32 ∧ 0 ≤ m.keyCount ∧ m.keyCount < (2 : Int) ^ 64 ∧
    m.freePageHead < 2 ^ 32

instance (m : MetaPage) : Decidable (metaFits m) := by
  unfold metaFits
  infer_instance

/-- A store whose free list holds page 5 (freePageHead = 5,
totalPages = 9): the state used to evaluate free_page(0) followed by
allocate_page. -/
def c8St : TreeSt :=
  ⟨4096, fun n => if n = 0 then .meta ⟨4096, 2, 1, 9, 0, 5⟩ else .freePg 0⟩

/-- The meta page of c8St. -/
def c8Meta : MetaPage := ⟨4096, 2, 1, 9, 0, 5⟩

/-- The 93 leaf cells of the c9St leaf: key 1 holds a 9000-byte value
spilled to the overflow chain 3 -> 4, keys 2..93 are small inline
values. -/
def c9Cells : List LeafCell :=
  ⟨1, ⟨1, 0⟩, 9000, 3⟩ :: (List.range 92).map (fun i => ⟨i + 2, ⟨1, 0⟩, 1, 0⟩)

/-- A depth-2 store: an internal root (page 2, separator 1000) over a
left leaf (page 1) holding the 93 cells of c9Cells - key 1 with the
overflow chain 3 -> 4 - and a right leaf (page 5): the state used to
evaluate the delete-frees-chain round trip on a multi-level tree. -/
def c9St : TreeSt :=
  ⟨4096, fun n =>
    if n = 0 then .meta ⟨4096, 2, 2, 6, 93, 0⟩
    else if n = 2 then .internal ⟨0, 1, [⟨1000, 5⟩]⟩
    else if n = 1 then .leaf ⟨5, c9Cells⟩
    else if n = 5 then .leaf ⟨0, [⟨1000, ⟨1, 0⟩, 1, 0⟩]⟩
    else if n = 3 then .overflow 4 4084 ⟨10, 5⟩
    else if n = 4 then .overflow 0 912 ⟨10, 6⟩
    else .freePg 0⟩

end BPT

/-! Write-ahead log (storage/wal.ts, the current version among the
unnamed sources).  The log file is modelled at the byte level as a list
of byte values; WriteAheadLog.replay scans 20-byte record headers from
the end of the 32-byte file header, and this scan is embedded with the
remaining suffix of the file made explicit (the loop condition
offset + 20 <= size becomes 20 <= remaining length, and the file-end
overrun check offset + length > size becomes length > remaining after
the header).  The final application loop writes every committed frame
through pageManager.writePage in map insertion order; replayWrites below
is that list of writes.  Validating or rewriting the 32-byte file header
touches only the header bytes and does not affect the scan. -/

namespace WAL

/-- Bytes of a file region. -/
abbrev Bytes := List Nat

/-- The u32 value of the first four bytes of a region (Buffer bytes are
0..255, which the mod mirrors; the scan always has four bytes available
where it reads, the shorter fallbacks only make the function total). -/
def byteAt4 : Bytes → Nat
  | b0 :: b1 :: b2 :: b3 :: _ =>
    b0 % 256 + 256 * (b1 % 256) + 65536 * (b2 % 256) + 16777216 * (b3 % 256)
  | [b0, b1, b2] => b0 % 256 + 256 * (b1 % 256) + 65536 * (b2 % 256)
  | [b0, b1] => b0 % 256 + 256 * (b1 % 256)
  | [b0] => b0 % 256
  | [] => 0

/-- Buffer.readUInt32LE at offset i. -/
def readU32LE (bs : Bytes) (i : Nat) : Nat :=
  byteAt4 (bs.drop i)

/-- checksumBuffer: the running 32-bit byte sum of a payload. -/
def checksumBuffer (bs : Bytes) : Nat :=
  bs.foldl (fun sum b => (sum + b) % 4294967296) 0

/-- The bytes a read of length len at offset off yields. -/
def sliceBytes (bs : Bytes) (off len : Nat) : Bytes :=
  ((bs.drop off).take len).map (fun b => b % 256)

/-- A staged frame: page number and full page image. -/
structure Frame where
  pageNumber : Nat
  data : Bytes
  deriving DecidableEq, Repr

/-- JS-Map lookup on an association list (first match). -/
def mapGet (l : List (Nat × List Frame)) (k : Nat) : Option (List Frame) :=
  (l.find? (fun e => e.1 = k)).map (·.2)

/-- JS-Map set: replace the value in place when the key is present,
else append the new entry (Map preserves insertion order). -/
def mapSet (l : List (Nat × List Frame)) (k : Nat) (v : List Frame) :
    List (Nat × List Frame) :=
  if (l.find? (fun e => e.1 = k)).isSome then
    l.map (fun e => if e.1 = k then (k, v) else e)
  else
    l ++ [(k, v)]

/-- JS-Map delete. -/
def mapDelete (l : List (Nat × List Frame)) (k : Nat) :
    List (Nat × List Frame) :=
  l.filter (fun e => ¬ e.1 = k)

/-- The in-flight state of WriteAheadLog.replay: the pending map
txId -> staged frames, and the committed map in commit order. -/
structure ScanState where
  pending : List (Nat × List Frame)
  committed : List (Nat × List Frame)
  deriving DecidableEq, Repr

/-- The record scan of WriteAheadLog.replay over the remaining bytes.
Begin registers the transaction; Page stops the scan when its length
field differs from pageSize or the payload would overrun the file end,
drops the frame on a checksum mismatch, and stages it otherwise; Commit
moves the pending frames of the transaction to the committed map; any
other record type stops the scan.  Fuel only bounds the recursion; each
step consumes at least 20 bytes, so any fuel at least the remaining
length gives the scan result. -/
def replayScan (ps : Nat) : Nat → Bytes → ScanState → ScanState
  | 0, _, st => st
  | fuel + 1, rem, st =>
    if 20 ≤ rem.length then
      let rtype := readU32LE rem 0
      let txId := readU32LE rem 4
      let pageNumber := readU32LE rem 8
      let length := readU32LE rem 12
      let checksum := readU32LE rem 16
      let rest := rem.drop 20
      if rtype = 0 then
        let pending :=
          if (mapGet st.pending txId).isSome then st.pending
          else st.pending ++ [(txId, [])]
        replayScan ps fuel rest { st with pending }
      else if rtype = 1 then
        if length ≠ ps ∨ rest.length < length then st
        else
          let data := sliceBytes rem 20 length
          let rest := rest.drop length
          if checksum ≠ checksumBuffer data then replayScan ps fuel rest st
          else
            let frames := (mapGet st.pending txId).getD []
            replayScan ps fuel rest
              { st with pending := mapSet st.pending txId (frames ++ [⟨pageNumber, data⟩]) }
      else if rtype = 2 then
        match mapGet st.pending txId with
        | some frames =>
          replayScan ps fuel rest
            ⟨mapDelete st.pending txId, mapSet st.committed txId frames⟩
        | none => replayScan ps fuel rest st
      else st
    else st

/-- WriteAheadLog.replay up to the page writes: nothing is scanned when
the file does not extend past its 32-byte header, otherwise the records
region is scanned from scratch. -/
def walScan (ps : Nat) (file : Bytes) : ScanState :=
  if file.length ≤ 32 then ⟨[], []⟩
  else replayScan ps file.length (file.drop 32) ⟨[], []⟩

/-- The writes replay performs after the scan: every committed frame,
in commit order. -/
def replayWrites (st : ScanState) : List Frame :=
  st.committed.flatMap (·.2)

/-- A wire record before encoding: the four header fields beside the
length (which encoding computes from the payload), plus the payload. -/
structure RawRecord where
  rtype : Nat
  txId : Nat
  pageNumber : Nat
  checksum : Nat
  payload : Bytes
  deriving DecidableEq, Repr

/-- Buffer.writeUInt32LE. -/
def encU32LE (n : Nat) : Bytes :=
  [n % 256, n / 256 % 256, n / 65536 % 256, n / 16777216 % 256]

/-- The wire form of a record: 20-byte header then the payload
(writeRecord in the source). -/
def encodeRecord (r : RawRecord) : Bytes :=
  encU32LE r.rtype ++ encU32LE r.txId ++ encU32LE r.pageNumber ++
    encU32LE r.payload.length ++ encU32LE r.checksum ++ r.payload

/-- The wire form of a record list. -/
def encodeRecords (rs : List RawRecord) : Bytes :=
  rs.flatMap encodeRecord

/-- A 20-byte record header alone (its length field arbitrary),
used for torn tails whose payload is missing or short. -/
def encHeader (rtype txId pageNumber length checksum : Nat) : Bytes :=
  encU32LE rtype ++ encU32LE txId ++ encU32LE pageNumber ++
    encU32LE length ++ encU32LE checksum

/-- The 32-byte WAL file header (magic TSWALV1, pageSize at offset
16). -/
def walHeader (ps : Nat) : Bytes :=
  [84, 83, 87, 65, 76, 86, 49, 0, 0, 0, 0, 0, 0, 0, 0, 0] ++
    encU32LE ps ++ [0, 0, 0, 0, 0, 0, 0, 0, 0, 0, 0, 0]

/-- A record the scan consumes and processes: known type, in-range
header fields, payload bytes that are bytes, empty payloads on Begin
and Commit (the scan does not skip payload bytes of those types), and
on Page a payload of exactly pageSize with a matching checksum. -/
def GoodRec (ps : Nat) (r : RawRecord) : Prop :=
  r.rtype < 3 ∧ r.txId < 2 ^ 32 ∧ r.pageNumber < 2 ^ 32 ∧
    r.checksum < 2 ^ 32 ∧ r.payload.length < 2 ^ 32 ∧
    (∀ b ∈ r.payload, b < 256) ∧
    ((r.rtype = 0 ∨ r.rtype = 2) → r.payload = []) ∧
    (r.rtype = 1 → r.payload.length = ps ∧ r.checksum = checksumBuffer r.payload)

instance (ps : Nat) (r : RawRecord) : Decidable (GoodRec ps r) := by
  unfold GoodRec
  infer_instance

/-- The record-level step the scan performs on one good record. -/
def stepRec (st : ScanState) (r : RawRecord) : ScanState :=
  if r.rtype = 0 then
    { st with pending :=
        if (mapGet st.pending r.txId).isSome then st.pending
        else st.pending ++ [(r.txId, [])] }
  else if r.rtype = 1 then
    let frames := (mapGet st.pending r.txId).getD []
    { st with pending := mapSet st.pending r.txId (frames ++ [⟨r.pageNumber, r.payload⟩]) }
  else if r.rtype = 2 then
    match mapGet st.pending r.txId with
    | some frames => ⟨mapDelete st.pending r.txId, mapSet st.committed r.txId frames⟩
    | none => st
  else st

/-- The record-level scan. -/
def scanRecs (recs : List RawRecord) (st : ScanState) : ScanState :=
  recs.foldl stepRec st

/-- Is r a Commit record of transaction T? -/
def isCommitOf (T : Nat) (r : RawRecord) : Bool :=
  r.rtype = 2 ∧ r.txId = T

/-- Is r a record of transaction T that creates or extends its pending
entry (Begin or Page)? -/
def isTxRec (T : Nat) (r : RawRecord) : Bool :=
  r.txId = T ∧ (r.rtype = 0 ∨ r.rtype = 1)

/-- The staged frames of the Page records of transaction T in a record
list. -/
def pagesOf (T : Nat) (recs : List RawRecord) : List Frame :=
  recs.filterMap fun r =>
    if r.rtype = 1 ∧ r.txId = T then some ⟨r.pageNumber, r.payload⟩ else none

/-- The frames of transaction T that replay applies: its committed
entry, empty when there is none. -/
def appliedOf (T : Nat) (st : ScanState) : List Frame :=
  (mapGet st.committed T).getD []

end WAL

namespace Pages

/-! Byte-level model of the page codec (src/src/tree/pages.ts with the
bigint codec of src/src/utils/codec.ts): a page buffer is a byte
function, serialization writes little-endian fields exactly as the
source does and deserialization reads them back.  Fallible source
operations (overflow throws, the key-size throw of bufferToBigInt) are
Except values. -/

/-- A page buffer: the byte at each offset. -/
def Buf := Nat → Nat

/-- Buffer.alloc / target.fill(0). -/
def bufZero : Buf := fun _ => 0

/-- Copy a byte list into the buffer at an offset (Buffer.copy; Buffer
bytes are 0..255, which the mod mirrors). -/
def writeBytes : Buf → Nat → List Nat → Buf
  | b, _, [] => b
  | b, off, v :: vs =>
    writeBytes (fun i => if i = off then v % 256 else b i) (off + 1) vs

/-- The little-endian bytes of writeUInt16LE. -/
def encU16 (v : Nat) : List Nat := [v % 256, v / 256 % 256]

/-- The little-endian bytes of writeUInt32LE. -/
def encU32 (v : Nat) : List Nat :=
  [v % 256, v / 256 % 256, v / 65536 % 256, v / 16777216 % 256]

/-- target.writeUInt8(v, off). -/
def writeU8 (b : Buf) (off v : Nat) : Buf := writeBytes b off [v]

/-- target.writeUInt16LE(v, off). -/
def writeU16 (b : Buf) (off v : Nat) : Buf := writeBytes b off (encU16 v)

/-- target.writeUInt32LE(v, off). -/
def writeU32 (b : Buf) (off v : Nat) : Buf := writeBytes b off (encU32 v)

/-- buffer.readUInt8(off). -/
def readU8 (b : Buf) (off : Nat) : Nat := b off

/-- buffer.readUInt16LE(off). -/
def readU16 (b : Buf) (off : Nat) : Nat := b off + 256 * b (off + 1)

/-- buffer.readUInt32LE(off). -/
def readU32 (b : Buf) (off : Nat) : Nat :=
  b off + 256 * b (off + 1) + 65536 * b (off + 2) + 16777216 * b (off + 3)

/-- buffer.subarray(start, stop) as a byte list. -/
def subarray (b : Buf) (start stop : Nat) : List Nat :=
  (List.range (stop - start)).map (fun i => b (start + i))

/-- bigintToBuffer: the eight big-endian key bytes; throws when the key
needs more than 64 bits (codec.ts). -/
def bigintToBuffer (k : Nat) : Except String (List Nat) :=
  if k < 2 ^ 64 then
    .ok [k / 72057594037927936 % 256, k / 281474976710656 % 256,
      k / 1099511627776 % 256, k / 4294967296 % 256, k / 16777216 % 256,
      k / 65536 % 256, k / 256 % 256, k % 256]
  else .error "Key too large to fit in 64 bits"

/-- bufferToBigInt: big-endian fold of an exactly-eight-byte buffer
(codec.ts). -/
def bufferToBigInt (bs : List Nat) : Except String Nat :=
  if bs.length = BPT.KEY_SIZE_BYTES then
    .ok (bs.foldl (fun v byte => v * 256 + byte) 0)
  else .error "Key buffer must be 8 bytes"

/-- A leaf cell as pages.ts sees it: key, inline value bytes, total
value length and overflow head. -/
structure LeafCellB where
  key : Nat
  inlineValue : List Nat
  valueLength : Nat
  overflowPage : Nat
  deriving DecidableEq, Repr

/-- A leaf page as pages.ts sees it (the type tag is fixed by the
constructor used). -/
structure LeafPageB where
  keyCount : Nat
  rightSibling : Nat
  cells : List LeafCellB
  deriving DecidableEq, Repr

/-- An internal cell: separator key and right child. -/
structure InternalCellB where
  key : Nat
  child : Nat
  deriving DecidableEq, Repr

/-- An internal page as pages.ts sees it. -/
structure InternalPageB where
  keyCount : Nat
  rightSibling : Nat
  leftChild : Nat
  cells : List InternalCellB
  deriving DecidableEq, Repr

/-- The serializeLeaf cell loop: writes each record below the previous
payload offset and its slot pointer at the next pointer offset, and
throws when the record region would reach the pointer region
(payloadOffset is an Int because the source decrements a JS number that
may go negative before the check). -/
def serializeLeafCells :
    List LeafCellB → Buf → Nat → Int → Except String (Buf × Int)
  | [], b, _, payloadOffset => .ok (b, payloadOffset)
  | cell :: rest, b, pointerOffset, payloadOffset => do
    let keyBuffer ← bigintToBuffer cell.key
    let recordSize : Int := 12 + keyBuffer.length + cell.inlineValue.length
    let payloadOffset := payloadOffset - recordSize
    if payloadOffset ≤ pointerOffset then .error "Leaf page overflow"
    else
      let off := payloadOffset.toNat
      let b := writeU16 b off keyBuffer.length
      let b := writeU16 b (off + 2) cell.inlineValue.length
      let b := writeU32 b (off + 4) cell.valueLength
      let b := writeU32 b (off + 8) cell.overflowPage
      let b := writeBytes b (off + 12) keyBuffer
      let b := writeBytes b (off + 12 + keyBuffer.length) cell.inlineValue
      let b := writeU16 b pointerOffset off
      serializeLeafCells rest b (pointerOffset + 2) payloadOffset

/-- serializeLeaf into a zeroed page of the given size. -/
def serializeLeaf (page : LeafPageB) (ps : Nat) : Except String Buf := do
  if page.cells.length > BPT.MAX_LEAF_KEYS then .error "Leaf page overflow"
  else
    let b := bufZero
    let b := writeU8 b 0 2
    let b := writeU16 b 2 page.cells.length
    let b := writeU32 b 4 page.rightSibling
    let r ← serializeLeafCells page.cells b BPT.PAGE_HEADER_SIZE (ps : Int)
    .ok (writeU16 r.1 8 r.2.toNat)

/-- The deserializeLeaf cell loop over the slot indices i, i+1, ...
with the given number of iterations left; a zero slot pointer skips the
slot. -/
def deserializeLeafCells (b : Buf) : Nat → Nat → Except String (List LeafCellB)
  | _, 0 => .ok []
  | i, n + 1 =>
    let cellOffset := readU16 b (BPT.PAGE_HEADER_SIZE + i * 2)
    if cellOffset = 0 then deserializeLeafCells b (i + 1) n
    else do
      let keyLength := readU16 b cellOffset
      let inlineLength := readU16 b (cellOffset + 2)
      let totalValueLength := readU32 b (cellOffset + 4)
      let overflowPage := readU32 b (cellOffset + 8)
      let key ← bufferToBigInt
        (subarray b (cellOffset + 12) (cellOffset + 12 + keyLength))
      let inlineValue := subarray b (cellOffset + 12 + keyLength)
        (cellOffset + 12 + keyLength + inlineLength)
      let rest ← deserializeLeafCells b (i + 1) n
      .ok (⟨key, inlineValue, totalValueLength, overflowPage⟩ :: rest)

/-- deserializeLeaf: header check, then the slot loop bounded by both
the stored key count and MAX_LEAF_KEYS. -/
def deserializeLeaf (b : Buf) : Except String LeafPageB := do
  if readU8 b 0 ≠ 2 then .error "Page is not a leaf"
  else
    let keyCount := readU16 b 2
    let cells ← deserializeLeafCells b 0 (min keyCount BPT.MAX_LEAF_KEYS)
    .ok ⟨cells.length, readU32 b 4, cells⟩

/-- The serializeInternal cell loop: eight key bytes then the child
pointer, at consecutive offsets. -/
def serializeInternalCells :
    List InternalCellB → Buf → Nat → Except String Buf
  | [], b, _ => .ok b
  | cell :: rest, b, off => do
    let keyBuffer ← bigintToBuffer cell.key
    let b := writeBytes b off keyBuffer
    let b := writeU32 b (off + BPT.KEY_SIZE_BYTES) cell.child
    serializeInternalCells rest b (off + BPT.KEY_SIZE_BYTES + 4)

/-- serializeInternal into a zeroed page. -/
def serializeInternal (page : InternalPageB) : Except String Buf := do
  if page.cells.length > BPT.MAX_INTERNAL_KEYS then
    .error "Internal page overflow"
  else
    let b := bufZero
    let b := writeU8 b 0 1
    let b := writeU16 b 2 page.cells.length
    let b := writeU32 b 4 page.rightSibling
    let b := writeU16 b 8 0
    let b := writeU32 b BPT.PAGE_HEADER_SIZE page.leftChild
    serializeInternalCells page.cells b (BPT.PAGE_HEADER_SIZE + 4)

/-- The deserializeInternal cell loop. -/
def deserializeInternalCells (b : Buf) :
    Nat → Nat → Except String (List InternalCellB)
  | _, 0 => .ok []
  | off, n + 1 => do
    let key ← bufferToBigInt (subarray b off (off + BPT.KEY_SIZE_BYTES))
    let child := readU32 b (off + BPT.KEY_SIZE_BYTES)
    let rest ← deserializeInternalCells b (off + BPT.KEY_SIZE_BYTES + 4) n
    .ok (⟨key, child⟩ :: rest)

/-- deserializeInternal: header check, left child, then the cell
loop. -/
def deserializeInternal (b : Buf) : Except String InternalPageB := do
  if readU8 b 0 ≠ 1 then .error "Page is not an internal node"
  else
    let keyCount := readU16 b 2
    let leftChild := readU32 b BPT.PAGE_HEADER_SIZE
    let cells ← deserializeInternalCells b (BPT.PAGE_HEADER_SIZE + 4)
      (min keyCount BPT.MAX_INTERNAL_KEYS)
    .ok ⟨cells.length, readU32 b 4, leftChild, cells⟩

/-- The record bytes a leaf cell occupies. -/
def cellRecordSize (c : LeafCellB) : Nat := 12 + 8 + c.inlineValue.length

/-- Total record bytes of a list of leaf cells. -/
def totalRecordSize (cs : List LeafCellB) : Nat :=
  (cs.map cellRecordSize).sum

end Pages

/-! Theorems.  The four trace theorems below evaluate the model on the
concrete stores defined above; the remaining claims are settled by the
general theorems that follow. -/

set_option maxRecDepth 80000 in
/-- C1: the claim that for every key k and value v, after set(k, v) with
no subsequent delete or overwrite of k, get(k) returns a byte buffer
bit-identical to v, fails on the code.  In afterSet340 the key 170 was
set exactly once (while building fullRootSt) and never deleted or
overwritten — collectAllEntries still lists it with its full value — yet
get(170) returns none: pickChildSlot moves from the left root child to
its right sibling because 170 is not below any of its 169 separators,
and the search descends into a subtree of larger keys. -/
theorem C1_get_loses_present_key :
    (BPT.afterSet340.bind fun st => BPT.get st 170 99) = .ok none ∧
    (BPT.afterSet340.bind fun st =>
      (BPT.collectAllEntries st 999).map
        (fun l => l.contains (170, BPT.bigValue))) = .ok true :=
  ⟨rfl, rfl⟩

set_option maxRecDepth 80000 in
/-- C4: the claim that delete(k) returns true exactly when k was present
fails on the code: in afterSet340 the key 170 is present
(collectAllEntries lists it with its value), yet delete(170) follows the
same misrouted traversal as get, reaches a leaf of larger keys, and
returns false. -/
theorem C4_delete_false_for_present_key :
    (BPT.afterSet340.bind fun st => (BPT.delete st 170 99).map (·.1)) = .ok false ∧
    (BPT.afterSet340.bind fun st =>
      (BPT.collectAllEntries st 999).map
        (fun l => l.contains (170, BPT.bigValue))) = .ok true :=
  ⟨rfl, rfl⟩

set_option maxRecDepth 80000 in
/-- C5: the claim that range(start, end) yields exactly the stored pairs
with keys in [start, end] fails on the code: in afterSet340 the pair
(170, bigValue) is stored (collectAllEntries lists it), yet
range(170, 170) yields nothing, because the scan starts at the leaf the
misrouted traversal reaches, which lies right of the leaf holding
170. -/
theorem C5_range_misses_present_pair :
    (BPT.afterSet340.bind fun st => BPT.range st 170 170 999) = .ok [] ∧
    (BPT.afterSet340.bind fun st =>
      (BPT.collectAllEntries st 999).map
        (fun l => l.contains (170, BPT.bigValue))) = .ok true :=
  ⟨rfl, rfl⟩

set_option maxRecDepth 80000 in
/-- C6: the claim that set(k, v) followed by set(k, v) on the same key
leaves meta.keyCount unchanged fails on the code: after afterStepSet
(keyCount 340) the repeated set of key 1695 is misrouted to a leaf that
does not contain 1695, treats the key as new, inserts a duplicate cell
and increments keyCount to 341. -/
theorem C6_repeated_set_increments_keyCount :
    BPT.afterStepSet.map (fun st => (BPT.readMeta st).keyCount) = .ok 340 ∧
    BPT.afterStepSetTwice.map (fun st => (BPT.readMeta st).keyCount) = .ok 341 :=
  ⟨rfl, rfl⟩

/-- C10: consistencyCheck never returns false: for every store and fuel
it either returns true or raises (cycle, page-type mismatch, or fuel),
since the boolean result is the constant true mapped over validateNode. -/
theorem C10_consistencyCheck_never_false (st : BPT.TreeSt) (fuel : Nat) :
    BPT.consistencyCheck st fuel ≠ .ok false := by
  have h : BPT.consistencyCheck st fuel =
      (BPT.validateNode st fuel (BPT.readMeta st).rootPage
        ((BPT.readMeta st).treeDepth : Int) []).bind (fun _ => .ok true) := rfl
  rw [h]
  cases BPT.validateNode st fuel (BPT.readMeta st).rootPage
      ((BPT.readMeta st).treeDepth : Int) [] <;>
    simp [Except.bind]

namespace BPT

/-- Reading a page after a page write. -/
theorem pageGet_pageSet (st : TreeSt) (n m : Nat) (p : DPage) :
    (st.pageSet n p).pageGet m = if m = n then p else st.pageGet m := rfl

/-- writeMeta succeeds exactly under metaFits, storing the meta page. -/
theorem writeMeta_ok (st : TreeSt) (m : MetaPage) (h : metaFits m) :
    writeMeta st m = .ok (st.pageSet 0 (.meta m)) := by
  unfold writeMeta metaFits at *
  exact if_pos h

/-- readMeta returns the decoded meta page stored at page 0. -/
theorem readMeta_of_page0 (st : TreeSt) (m : MetaPage) (h : st.pageGet 0 = .meta m) :
    readMeta st = m := by
  unfold readMeta
  rw [h]

end BPT

/-- C8 counterexample: the claim quantifies over every page n, but at
n = 0 free_page writes the successor pointer into page 0 and writeMeta
then overwrites page 0 with the meta whose freeListHead is 0, so the
following allocate_page bump-allocates: on the store c8St (freeListHead
5, totalPages 9), free_page(0) then allocate_page returns 9, not 0, and
leaves freeListHead 0 instead of restoring 5. -/
theorem C8_free_zero_counterexample :
    ((BPT.freePage BPT.c8St 0).bind fun st1 =>
      (BPT.allocatePage st1).map fun r => (r.1, (BPT.readMeta r.2).freePageHead))
      = .ok (9, 0) ∧
    ((BPT.freePage BPT.c8St 0).bind fun st1 =>
      (BPT.allocatePage st1).map fun r => (r.1, (BPT.readMeta r.2).freePageHead))
      ≠ .ok (0, 5) := by
  constructor
  · rfl
  · intro h
    rw [show ((BPT.freePage BPT.c8St 0).bind fun st1 =>
      (BPT.allocatePage st1).map fun r => (r.1, (BPT.readMeta r.2).freePageHead))
      = .ok (9, 0) from rfl] at h
    exact absurd (Except.ok.inj h) (by decide)

/-- C8 (amended: the free-then-allocate round trip holds for every page
n with 1 <= n rather than for every page n; n = 0 aliases the meta
page).  For a store whose page 0 holds a meta m within field bounds:
allocate_page with freeListHead nonzero returns the head and advances
freeListHead to the u32 at offset 0 of that page; with freeListHead 0 it
returns totalPages, increments totalPages and zeroes the new page on
disk; free_page(n) writes the previous freeListHead into page n at
offset 0 (the rest of the page zeroed) and sets freeListHead to n, and
allocate_page called immediately after free_page(n) returns n and
restores freeListHead. -/
theorem C8_allocate_free_page (st : BPT.TreeSt) (m : BPT.MetaPage)
    (hm : st.pageGet 0 = .meta m) (hfits : BPT.metaFits m) :
    (m.freePageHead ≠ 0 → (st.pageGet m.freePageHead).u32at0 < 2 ^ 32 →
      ∃ st', BPT.allocatePage st = .ok (m.freePageHead, st') ∧
        (BPT.readMeta st').freePageHead = (st.pageGet m.freePageHead).u32at0) ∧
    (m.freePageHead = 0 → 0 < m.totalPages → m.totalPages + 1 < 2 ^ 32 →
      ∃ st', BPT.allocatePage st = .ok (m.totalPages, st') ∧
        (BPT.readMeta st').totalPages = m.totalPages + 1 ∧
        st'.pageGet m.totalPages = .freePg 0) ∧
    (∀ n, 1 ≤ n → n < 2 ^ 32 →
      ∃ st1 st2, BPT.freePage st n = .ok st1 ∧
        st1.pageGet n = .freePg m.freePageHead ∧
        (BPT.readMeta st1).freePageHead = n ∧
        BPT.allocatePage st1 = .ok (n, st2) ∧
        (BPT.readMeta st2).freePageHead = m.freePageHead) := by
  obtain ⟨a, b, c, d, e, f, g⟩ := hfits
  have hrm : BPT.readMeta st = m := BPT.readMeta_of_page0 st m hm
  refine ⟨?_, ?_, ?_⟩
  · intro hne h32
    have hfits' : BPT.metaFits { m with freePageHead := (st.pageGet m.freePageHead).u32at0 } :=
      ⟨a, b, c, d, e, f, h32⟩
    refine ⟨st.pageSet 0 (.meta { m with freePageHead := (st.pageGet m.freePageHead).u32at0 }), ?_, ?_⟩
    · unfold BPT.allocatePage
      rw [hrm, if_pos (by omega : m.freePageHead > 0)]
      simp only []
      rw [BPT.writeMeta_ok _ _ hfits']
      rfl
    · rw [BPT.readMeta_of_page0 _ _ (by rw [BPT.pageGet_pageSet, if_pos rfl])]
  · intro h0 htp h32
    have hfits' : BPT.metaFits { m with totalPages := m.totalPages + 1 } :=
      ⟨a, b, c, h32, e, f, g⟩
    refine ⟨(st.pageSet 0 (.meta { m with totalPages := m.totalPages + 1 })).pageSet
      m.totalPages (.freePg 0), ?_, ?_, ?_⟩
    · unfold BPT.allocatePage
      rw [hrm, if_neg (by omega : ¬ m.freePageHead > 0)]
      simp only []
      rw [BPT.writeMeta_ok _ _ hfits']
      rfl
    · rw [BPT.readMeta_of_page0 _ ({ m with totalPages := m.totalPages + 1 }) (by
        rw [BPT.pageGet_pageSet, if_neg (by omega : (0 : Nat) ≠ m.totalPages),
          BPT.pageGet_pageSet, if_pos rfl])]
    · rw [BPT.pageGet_pageSet, if_pos rfl]
  · intro n hn1 hn32
    have hfits1 : BPT.metaFits { m with freePageHead := n } := ⟨a, b, c, d, e, f, hn32⟩
    have hn0 : n ≠ 0 := by omega
    set st1 := (st.pageSet n (.freePg m.freePageHead)).pageSet 0
      (.meta { m with freePageHead := n }) with hst1
    have hfree : BPT.freePage st n = .ok st1 := by
      unfold BPT.freePage
      rw [hrm, BPT.writeMeta_ok _ _ hfits1]
    have hget0 : st1.pageGet 0 = .meta { m with freePageHead := n } := by
      rw [hst1, BPT.pageGet_pageSet, if_pos rfl]
    have hrm1 : BPT.readMeta st1 = { m with freePageHead := n } :=
      BPT.readMeta_of_page0 st1 _ hget0
    have hgetn : st1.pageGet n = .freePg m.freePageHead := by
      rw [hst1, BPT.pageGet_pageSet, if_neg hn0, BPT.pageGet_pageSet, if_pos rfl]
    have hfits2 : BPT.metaFits { m with freePageHead := m.freePageHead } :=
      ⟨a, b, c, d, e, f, g⟩
    have halloc : BPT.allocatePage st1 =
        .ok (n, st1.pageSet 0 (.meta { m with freePageHead := m.freePageHead })) := by
      unfold BPT.allocatePage
      rw [hrm1]
      rw [show ∀ h1 h2, (if ({ m with freePageHead := n } : BPT.MetaPage).freePageHead > 0
        then h1 else h2 : Except String (Nat × BPT.TreeSt)) = h1 from
        fun h1 h2 => if_pos (by omega : n > 0)]
      simp only []
      rw [hgetn]
      simp only [BPT.DPage.u32at0]
      rw [BPT.writeMeta_ok _ _ hfits2]
      rfl
    refine ⟨st1, _, hfree, hgetn, by rw [hrm1], halloc, ?_⟩
    rw [BPT.readMeta_of_page0 _ ({ m with freePageHead := m.freePageHead })
      (by rw [BPT.pageGet_pageSet, if_pos rfl])]

/-- C8 witness: the amended round trip at the concrete store c8St and
page 7. -/
theorem C8_allocate_free_page_witness :
    ∃ st1 st2, BPT.freePage BPT.c8St 7 = .ok st1 ∧
      st1.pageGet 7 = .freePg BPT.c8Meta.freePageHead ∧
      (BPT.readMeta st1).freePageHead = 7 ∧
      BPT.allocatePage st1 = .ok (7, st2) ∧
      (BPT.readMeta st2).freePageHead = BPT.c8Meta.freePageHead :=
  (C8_allocate_free_page BPT.c8St BPT.c8Meta rfl (by decide)).2.2 7 (by decide) (by decide)

namespace WAL

theorem find_mapSetMap (l : List (Nat × List Frame)) (k k' : Nat) (v : List Frame) :
    (l.map (fun e => if e.1 = k then (k, v) else e)).find? (fun e => e.1 = k') =
      if k' = k then ((l.find? (fun e => e.1 = k)).map (fun _ => (k, v)))
      else l.find? (fun e => e.1 = k') := by
  induction l with
  | nil => by_cases h : k' = k <;> simp [h]
  | cons e es ih =>
    by_cases he : e.1 = k
    · by_cases h : k' = k
      · subst h
        simp [List.find?_cons, he, ih]
      · have h' : ¬ k = k' := fun hh => h hh.symm
        have he' : ¬ e.1 = k' := by rw [he]; exact h'
        simp [List.find?_cons, he, he', h', h, ih]
    · by_cases hek : e.1 = k'
      · by_cases h : k' = k
        · exact absurd (hek.trans h) he
        · simp [List.find?_cons, he, hek, h]
      · simp [List.find?_cons, he, hek, ih]

theorem find_appendSingle (l : List (Nat × List Frame)) (k k' : Nat) (v : List Frame) :
    (l ++ [(k, v)]).find? (fun e => e.1 = k') =
      match l.find? (fun e => e.1 = k') with
      | some e => some e
      | none => if k' = k then some (k, v) else none := by
  induction l with
  | nil =>
    by_cases h : k' = k
    · simp [h, List.find?_cons_of_pos]
    · simp only [List.nil_append, List.find?_nil]
      rw [List.find?_cons_of_neg _ (by simp; intro hh; exact h hh.symm)]
      simp [h]
  | cons e es ih =>
    by_cases hek : e.1 = k'
    · rw [List.cons_append, List.find?_cons_of_pos _ (by simp [hek]),
        List.find?_cons_of_pos _ (by simp [hek])]
    · rw [List.cons_append, List.find?_cons_of_neg _ (by simp [hek]),
        List.find?_cons_of_neg _ (by simp [hek]), ih]

theorem mapGet_mapSet (l : List (Nat × List Frame)) (k k' : Nat) (v : List Frame) :
    mapGet (mapSet l k v) k' = if k' = k then some v else mapGet l k' := by
  unfold mapGet mapSet
  by_cases hs : (l.find? (fun e => e.1 = k)).isSome
  · rw [if_pos hs, find_mapSetMap]
    by_cases h : k' = k
    · rw [if_pos h, if_pos h]
      match hf : l.find? (fun e => e.1 = k) with
      | some e0 => rw [hf]; simp
      | none => rw [hf] at hs; simp at hs
    · rw [if_neg h, if_neg h]
  · rw [if_neg hs, find_appendSingle]
    by_cases h : k' = k
    · rw [if_pos h]
      subst h
      match hf : l.find? (fun e => e.1 = k') with
      | some e0 => rw [hf] at hs; simp at hs
      | none => rw [hf]; simp
    · rw [if_neg h]
      match hf : l.find? (fun e => e.1 = k') with
      | some e0 => rw [hf]; simp [h]
      | none => rw [hf]; simp [h]

theorem mapGet_mapDelete (l : List (Nat × List Frame)) (k k' : Nat) :
    mapGet (mapDelete l k) k' = if k' = k then none else mapGet l k' := by
  unfold mapGet mapDelete
  induction l with
  | nil => by_cases h : k' = k <;> simp [h]
  | cons e es ih =>
    by_cases he : e.1 = k
    · rw [List.filter_cons_of_neg (by simp [he])]
      by_cases h : k' = k
      · rw [ih]; simp [h]
      · rw [ih, List.find?_cons_of_neg _ (by simp [he]; intro hh; exact h hh.symm)]
    · rw [List.filter_cons_of_pos (by simp [he])]
      by_cases hek : e.1 = k'
      · by_cases h : k' = k
        · exact absurd (hek.trans h) he
        · rw [List.find?_cons_of_pos _ (by simp [hek]),
            List.find?_cons_of_pos _ (by simp [hek])]
          simp [h]
      · rw [List.find?_cons_of_neg _ (by simp [hek]), ih,
          List.find?_cons_of_neg _ (by simp [hek])]

theorem mapGet_eq_none_iff (l : List (Nat × List Frame)) (k : Nat) :
    mapGet l k = none ↔ ∀ e ∈ l, e.1 ≠ k := by
  unfold mapGet
  rw [Option.map_eq_none', List.find?_eq_none]
  simp

theorem byteAt4_enc (a : Nat) (tail : Bytes) (ha : a < 2 ^ 32) :
    byteAt4 (encU32LE a ++ tail) = a := by
  simp only [encU32LE, List.cons_append, List.nil_append, byteAt4]
  omega

theorem length_encodeRecord (r : RawRecord) :
    (encodeRecord r).length = 20 + r.payload.length := by
  simp [encodeRecord, encU32LE]
  omega

theorem encodeRecord_drop20 (r : RawRecord) (rest : Bytes) :
    (encodeRecord r ++ rest).drop 20 = r.payload ++ rest := rfl

theorem encodeRecord_read0 (r : RawRecord) (rest : Bytes) (h : r.rtype < 2 ^ 32) :
    readU32LE (encodeRecord r ++ rest) 0 = r.rtype :=
  byteAt4_enc r.rtype _ h

theorem encodeRecord_read4 (r : RawRecord) (rest : Bytes) (h : r.txId < 2 ^ 32) :
    readU32LE (encodeRecord r ++ rest) 4 = r.txId :=
  byteAt4_enc r.txId _ h

theorem encodeRecord_read8 (r : RawRecord) (rest : Bytes) (h : r.pageNumber < 2 ^ 32) :
    readU32LE (encodeRecord r ++ rest) 8 = r.pageNumber :=
  byteAt4_enc r.pageNumber _ h

theorem encodeRecord_read12 (r : RawRecord) (rest : Bytes) (h : r.payload.length < 2 ^ 32) :
    readU32LE (encodeRecord r ++ rest) 12 = r.payload.length :=
  byteAt4_enc r.payload.length _ h

theorem encodeRecord_read16 (r : RawRecord) (rest : Bytes) (h : r.checksum < 2 ^ 32) :
    readU32LE (encodeRecord r ++ rest) 16 = r.checksum :=
  byteAt4_enc r.checksum _ h


theorem sliceBytes_enc (r : RawRecord) (rest : Bytes) (hb : ∀ b ∈ r.payload, b < 256) :
    sliceBytes (encodeRecord r ++ rest) 20 r.payload.length = r.payload := by
  unfold sliceBytes
  rw [encodeRecord_drop20, List.take_left]
  rw [List.map_congr_left (fun b hbm => Nat.mod_eq_of_lt (hb b hbm))]
  exact List.map_id _

theorem drop20_drop_len (r : RawRecord) (rest : Bytes) :
    ((encodeRecord r ++ rest).drop 20).drop r.payload.length = rest := by
  rw [encodeRecord_drop20, List.drop_left]

theorem length_enc_append (r : RawRecord) (rest : Bytes) :
    (encodeRecord r ++ rest).length = 20 + r.payload.length + rest.length := by
  rw [List.length_append, length_encodeRecord]

theorem replayScan_step (ps fuel : Nat) (r : RawRecord) (rest : Bytes) (st : ScanState)
    (hg : GoodRec ps r) :
    replayScan ps (fuel + 1) (encodeRecord r ++ rest) st =
      replayScan ps fuel rest (stepRec st r) := by
  obtain ⟨ht, hx, hpn, hc, hlen, hb, hemp, hpage⟩ := hg
  rw [replayScan]
  rw [if_pos (by rw [length_enc_append]; omega)]
  simp only []
  rw [encodeRecord_read0 _ _ (by omega), encodeRecord_read4 _ _ hx,
    encodeRecord_read8 _ _ hpn, encodeRecord_read12 _ _ hlen,
    encodeRecord_read16 _ _ hc]
  match htv : r.rtype, ht with
  | 0, _ =>
    rw [if_pos rfl]
    have hp : r.payload = [] := hemp (Or.inl htv)
    rw [encodeRecord_drop20, hp, List.nil_append]
    unfold stepRec
    rw [htv, if_pos rfl]
  | 1, _ =>
    rw [if_neg (by omega), if_pos rfl]
    have hp := hpage htv
    rw [if_neg (by
      rw [encodeRecord_drop20, List.length_append, hp.1]
      push_neg
      constructor
      · rfl
      · omega)]
    rw [sliceBytes_enc r rest hb]
    rw [if_neg (by rw [hp.2]; simp)]
    rw [drop20_drop_len]
    unfold stepRec
    rw [htv, if_neg (by omega), if_pos rfl]
  | 2, _ =>
    rw [if_neg (by omega), if_neg (by omega), if_pos rfl]
    have hp : r.payload = [] := hemp (Or.inr htv)
    rw [encodeRecord_drop20, hp, List.nil_append]
    unfold stepRec
    rw [htv, if_neg (by omega), if_neg (by omega), if_pos rfl]
    cases hm : mapGet st.pending r.txId with
    | some frames => rfl
    | none => rfl

theorem replayScan_nil (ps f : Nat) (st : ScanState) :
    replayScan ps f [] st = st := by
  cases f with
  | zero => rfl
  | succ f => rw [replayScan, if_neg (by simp)]

theorem scanRecs_cons (r : RawRecord) (rs : List RawRecord) (st : ScanState) :
    scanRecs (r :: rs) st = scanRecs rs (stepRec st r) := rfl

theorem replayScan_chain (ps : Nat) (recs : List RawRecord) (f : Nat)
    (suffix : Bytes) (st : ScanState) (hg : ∀ r ∈ recs, GoodRec ps r) :
    replayScan ps (recs.length + f) (encodeRecords recs ++ suffix) st =
      replayScan ps f suffix (scanRecs recs st) := by
  induction recs generalizing st with
  | nil => simp only [List.length_nil, Nat.zero_add]; rfl
  | cons r rs ih =>
    have he : encodeRecords (r :: rs) ++ suffix =
        encodeRecord r ++ (encodeRecords rs ++ suffix) := by
      simp [encodeRecords]
    rw [he, show (r :: rs).length + f = (rs.length + f) + 1 from by simp; omega]
    rw [replayScan_step ps (rs.length + f) r _ st (hg r (by simp))]
    rw [ih (stepRec st r) (fun x hx => hg x (by simp [hx])), scanRecs_cons]

theorem length_encodeRecords_ge (recs : List RawRecord) :
    recs.length ≤ (encodeRecords recs).length := by
  induction recs with
  | nil => simp [encodeRecords]
  | cons r rs ih =>
    have : encodeRecords (r :: rs) = encodeRecord r ++ encodeRecords rs := by
      simp [encodeRecords]
    rw [this, List.length_append, length_encodeRecord]
    simp only [List.length_cons]
    omega

theorem mapGet_append_single (l : List (Nat × List Frame)) (k k' : Nat)
    (v : List Frame) :
    mapGet (l ++ [(k, v)]) k' =
      match mapGet l k' with
      | some w => some w
      | none => if k' = k then some v else none := by
  unfold mapGet
  rw [find_appendSingle]
  cases hf : l.find? (fun e => e.1 = k') with
  | some e => rfl
  | none => by_cases hT : k' = k <;> simp [hT]

theorem pagesOf_cons (T : Nat) (r : RawRecord) (rs : List RawRecord) :
    pagesOf T (r :: rs) =
      (if r.rtype = 1 ∧ r.txId = T then [⟨r.pageNumber, r.payload⟩] else []) ++
        pagesOf T rs := by
  unfold pagesOf
  rw [List.filterMap_cons]
  by_cases h : r.rtype = 1 ∧ r.txId = T <;> simp [h]

theorem pagesOf_singleton (T : Nat) (r : RawRecord) :
    pagesOf T [r] =
      if r.rtype = 1 ∧ r.txId = T then [⟨r.pageNumber, r.payload⟩] else [] := by
  rw [pagesOf_cons, show pagesOf T ([] : List RawRecord) = [] from rfl,
    List.append_nil]

theorem pagesOf_append (T : Nat) (l1 l2 : List RawRecord) :
    pagesOf T (l1 ++ l2) = pagesOf T l1 ++ pagesOf T l2 := by
  unfold pagesOf
  rw [List.filterMap_append]

theorem stepRec_committed_ne (st : ScanState) (r : RawRecord) (T : Nat)
    (h : isCommitOf T r = false) :
    mapGet (stepRec st r).committed T = mapGet st.committed T := by
  unfold stepRec
  by_cases h0 : r.rtype = 0
  · rw [if_pos h0]
  · rw [if_neg h0]
    by_cases h1 : r.rtype = 1
    · rw [if_pos h1]
    · rw [if_neg h1]
      by_cases h2 : r.rtype = 2
      · rw [if_pos h2]
        cases hm : mapGet st.pending r.txId with
        | none => rfl
        | some frames =>
          have hT : T ≠ r.txId := by
            intro he
            rw [isCommitOf] at h
            simp [h2, he] at h
          simp only []
          rw [mapGet_mapSet, if_neg hT]
      · rw [if_neg h2]

theorem stepRec_pending_getD (st : ScanState) (r : RawRecord) (T : Nat)
    (h : isCommitOf T r = false) :
    (mapGet (stepRec st r).pending T).getD [] =
      (mapGet st.pending T).getD [] ++ pagesOf T [r] := by
  unfold stepRec
  by_cases h0 : r.rtype = 0
  · rw [if_pos h0]
    have hp : pagesOf T [r] = [] := by simp [pagesOf, h0]
    rw [hp, List.append_nil]
    by_cases hs : (mapGet st.pending r.txId).isSome
    · rw [if_pos hs]
    · rw [if_neg hs]
      simp only []
      rw [mapGet_append_single]
      cases hm : mapGet st.pending T with
      | some v => rfl
      | none => by_cases hT : T = r.txId <;> simp [hT]
  · rw [if_neg h0]
    by_cases h1 : r.rtype = 1
    · rw [if_pos h1]
      simp only []
      rw [mapGet_mapSet]
      by_cases hT : T = r.txId
      · rw [if_pos hT, hT]
        simp [pagesOf, h1]
      · rw [if_neg hT]
        have hp : pagesOf T [r] = [] := by
          simp only [pagesOf, List.filterMap]
          rw [if_neg (by intro hh; exact hT hh.2.symm)]
        rw [hp, List.append_nil]
    · rw [if_neg h1]
      have hp : pagesOf T [r] = [] := by
        simp only [pagesOf, List.filterMap]
        rw [if_neg (by intro hh; exact h1 hh.1)]
      rw [hp, List.append_nil]
      by_cases h2 : r.rtype = 2
      · rw [if_pos h2]
        cases hm : mapGet st.pending r.txId with
        | none => rfl
        | some frames =>
          have hT : T ≠ r.txId := by
            intro he
            rw [isCommitOf] at h
            simp [h2, he] at h
          simp only []
          rw [mapGet_mapDelete, if_neg hT]
      · rw [if_neg h2]

theorem stepRec_pending_isSome (st : ScanState) (r : RawRecord) (T : Nat)
    (h : isCommitOf T r = false) :
    (mapGet (stepRec st r).pending T).isSome =
      ((mapGet st.pending T).isSome || isTxRec T r) := by
  unfold stepRec
  by_cases h0 : r.rtype = 0
  · rw [if_pos h0]
    by_cases hs : (mapGet st.pending r.txId).isSome
    · rw [if_pos hs]
      by_cases hT : T = r.txId
      · rw [← hT] at hs
        simp [hs]
      · have : isTxRec T r = ((mapGet st.pending T).isSome && false) := by
          rw [isTxRec]
          simp
          intro he
          exact absurd he.symm hT
        simp [this]
    · rw [if_neg hs]
      simp only []
      rw [mapGet_append_single]
      cases hm : mapGet st.pending T with
      | some v => simp
      | none =>
        by_cases hT : T = r.txId
        · simp [hT, isTxRec, h0]
        · simp [hT, isTxRec]
          intro he
          exact absurd he.symm hT
  · rw [if_neg h0]
    by_cases h1 : r.rtype = 1
    · rw [if_pos h1]
      simp only []
      rw [mapGet_mapSet]
      by_cases hT : T = r.txId
      · rw [if_pos hT]
        simp [isTxRec, hT, h1]
      · rw [if_neg hT]
        have : isTxRec T r = false := by
          rw [isTxRec]
          simp
          intro he
          exact absurd he.symm hT
        simp [this]
    · rw [if_neg h1]
      have ht : isTxRec T r = false := by
        rw [isTxRec]
        simp [h0, h1]
      rw [ht, Bool.or_false]
      by_cases h2 : r.rtype = 2
      · rw [if_pos h2]
        cases hm : mapGet st.pending r.txId with
        | none => rfl
        | some frames =>
          have hT : T ≠ r.txId := by
            intro he
            rw [isCommitOf] at h
            simp [h2, he] at h
          simp only []
          rw [mapGet_mapDelete, if_neg hT]
      · rw [if_neg h2]

theorem stepRec_commit (st : ScanState) (r : RawRecord) (T : Nat)
    (h : isCommitOf T r = true) :
    mapGet (stepRec st r).committed T =
      match mapGet st.pending T with
      | some fs => some fs
      | none => mapGet st.committed T := by
  rw [isCommitOf] at h
  simp only [decide_eq_true_eq] at h
  obtain ⟨h2, hT⟩ := h
  unfold stepRec
  rw [if_neg (by omega), if_neg (by omega), if_pos h2, hT]
  cases hm : mapGet st.pending T with
  | none => rfl
  | some frames =>
    simp only []
    rw [mapGet_mapSet, if_pos rfl]

theorem scanRecs_committed_noCommit (recs : List RawRecord) (st : ScanState)
    (T : Nat) (h : ∀ r ∈ recs, isCommitOf T r = false) :
    mapGet (scanRecs recs st).committed T = mapGet st.committed T := by
  induction recs generalizing st with
  | nil => rfl
  | cons r rs ih =>
    rw [scanRecs_cons, ih (stepRec st r) (fun x hx => h x (by simp [hx])),
      stepRec_committed_ne st r T (h r (by simp))]

theorem scanRecs_pending_getD (recs : List RawRecord) (st : ScanState)
    (T : Nat) (h : ∀ r ∈ recs, isCommitOf T r = false) :
    (mapGet (scanRecs recs st).pending T).getD [] =
      (mapGet st.pending T).getD [] ++ pagesOf T recs := by
  induction recs generalizing st with
  | nil => simp [scanRecs, pagesOf]
  | cons r rs ih =>
    rw [scanRecs_cons, ih (stepRec st r) (fun x hx => h x (by simp [hx])),
      stepRec_pending_getD st r T (h r (by simp)), pagesOf_singleton,
      pagesOf_cons, List.append_assoc]

theorem scanRecs_pending_isSome (recs : List RawRecord) (st : ScanState)
    (T : Nat) (h : ∀ r ∈ recs, isCommitOf T r = false) :
    (mapGet (scanRecs recs st).pending T).isSome =
      ((mapGet st.pending T).isSome || recs.any (isTxRec T)) := by
  induction recs generalizing st with
  | nil => rw [List.any_nil, Bool.or_false]; rfl
  | cons r rs ih =>
    rw [scanRecs_cons, ih (stepRec st r) (fun x hx => h x (by simp [hx])),
      stepRec_pending_isSome st r T (h r (by simp)), List.any_cons,
      Bool.or_assoc]

theorem pagesOf_eq_nil_of_no_txRec (T : Nat) (recs : List RawRecord)
    (h : ∀ r ∈ recs, isTxRec T r = false) : pagesOf T recs = [] := by
  induction recs with
  | nil => rfl
  | cons r rs ih =>
    rw [pagesOf_cons, ih (fun x hx => h x (by simp [hx]))]
    have hr : ¬ (r.rtype = 1 ∧ r.txId = T) := by
      intro hh
      have hf := h r (by simp)
      rw [isTxRec] at hf
      simp [hh.1, hh.2] at hf
    rw [if_neg hr]
    rfl

theorem encHeader_read0 (t x pn ln c : Nat) (tail : Bytes) (h : t < 2 ^ 32) :
    readU32LE (encHeader t x pn ln c ++ tail) 0 = t :=
  byteAt4_enc t _ h

theorem encHeader_read4 (t x pn ln c : Nat) (tail : Bytes) (h : x < 2 ^ 32) :
    readU32LE (encHeader t x pn ln c ++ tail) 4 = x :=
  byteAt4_enc x _ h

theorem encHeader_read8 (t x pn ln c : Nat) (tail : Bytes) (h : pn < 2 ^ 32) :
    readU32LE (encHeader t x pn ln c ++ tail) 8 = pn :=
  byteAt4_enc pn _ h

theorem encHeader_read12 (t x pn ln c : Nat) (tail : Bytes) (h : ln < 2 ^ 32) :
    readU32LE (encHeader t x pn ln c ++ tail) 12 = ln :=
  byteAt4_enc ln _ h

theorem encHeader_read16 (t x pn ln c : Nat) (tail : Bytes) (h : c < 2 ^ 32) :
    readU32LE (encHeader t x pn ln c ++ tail) 16 = c :=
  byteAt4_enc c _ h

theorem encHeader_drop20 (t x pn ln c : Nat) (tail : Bytes) :
    (encHeader t x pn ln c ++ tail).drop 20 = tail := rfl

theorem length_encHeader_append (t x pn ln c : Nat) (tail : Bytes) :
    (encHeader t x pn ln c ++ tail).length = 20 + tail.length := by
  simp [encHeader, encU32LE]
  omega

theorem replayScan_stop_unknown (ps f t x pn ln c : Nat) (tail : Bytes)
    (st : ScanState) (ht : 3 ≤ t) (ht32 : t < 2 ^ 32) (hx : x < 2 ^ 32)
    (hpn : pn < 2 ^ 32) (hln : ln < 2 ^ 32) (hc : c < 2 ^ 32) :
    replayScan ps f (encHeader t x pn ln c ++ tail) st = st := by
  cases f with
  | zero => rfl
  | succ f =>
    rw [replayScan, if_pos (by rw [length_encHeader_append]; omega)]
    simp only []
    rw [encHeader_read0 t x pn ln c tail ht32]
    rw [if_neg (by omega), if_neg (by omega), if_neg (by omega)]

theorem replayScan_stop_page (ps f x pn ln c : Nat) (tail : Bytes)
    (st : ScanState) (hx : x < 2 ^ 32) (hpn : pn < 2 ^ 32) (hln : ln < 2 ^ 32)
    (hc : c < 2 ^ 32) (hbad : ln ≠ ps ∨ tail.length < ln) :
    replayScan ps f (encHeader 1 x pn ln c ++ tail) st = st := by
  cases f with
  | zero => rfl
  | succ f =>
    rw [replayScan, if_pos (by rw [length_encHeader_append]; omega)]
    simp only []
    rw [encHeader_read0 1 x pn ln c tail (by omega),
      encHeader_read12 1 x pn ln c tail hln]
    rw [if_neg (by omega), if_pos rfl]
    rw [if_pos (by rw [encHeader_drop20]; exact hbad)]

theorem replayScan_skip_checksum (ps f : Nat) (r : RawRecord) (rest : Bytes)
    (st : ScanState) (ht : r.rtype = 1) (hx : r.txId < 2 ^ 32)
    (hpn : r.pageNumber < 2 ^ 32) (hc : r.checksum < 2 ^ 32)
    (hlen : r.payload.length < 2 ^ 32) (hb : ∀ b ∈ r.payload, b < 256)
    (hps : r.payload.length = ps)
    (hbadc : r.checksum ≠ checksumBuffer r.payload) :
    replayScan ps (f + 1) (encodeRecord r ++ rest) st =
      replayScan ps f rest st := by
  rw [replayScan, if_pos (by rw [length_enc_append]; omega)]
  simp only []
  rw [encodeRecord_read0 _ _ (by omega), encodeRecord_read4 _ _ hx,
    encodeRecord_read8 _ _ hpn, encodeRecord_read12 _ _ hlen,
    encodeRecord_read16 _ _ hc, ht]
  rw [if_neg (by omega), if_pos rfl]
  rw [if_neg (by
    rw [encodeRecord_drop20, List.length_append, hps]
    push_neg
    exact ⟨rfl, by omega⟩)]
  rw [sliceBytes_enc r rest hb]
  rw [if_pos hbadc]
  rw [drop20_drop_len]

theorem walScan_split (ps : Nat) (recs : List RawRecord) (suffix : Bytes)
    (hg : ∀ r ∈ recs, GoodRec ps r) :
    ∃ f, suffix.length ≤ f ∧
      walScan ps (walHeader ps ++ (encodeRecords recs ++ suffix)) =
        replayScan ps f suffix (scanRecs recs ⟨[], []⟩) := by
  have hw : (walHeader ps).length = 32 := by simp [walHeader, encU32LE]
  have hlen : (walHeader ps ++ (encodeRecords recs ++ suffix)).length =
      32 + ((encodeRecords recs).length + suffix.length) := by
    rw [List.length_append, List.length_append, hw]
  have hge := length_encodeRecords_ge recs
  by_cases hb : (encodeRecords recs).length + suffix.length = 0
  · have h1 : encodeRecords recs = [] := List.length_eq_zero.mp (by omega)
    have h2 : suffix = [] := List.length_eq_zero.mp (by omega)
    have hrecs : recs = [] := by
      rw [h1] at hge
      simpa using hge
    refine ⟨0, by omega, ?_⟩
    unfold walScan
    rw [if_pos (by rw [hlen]; omega)]
    rw [hrecs]
    rfl
  · refine ⟨32 + ((encodeRecords recs).length + suffix.length) - recs.length,
      by omega, ?_⟩
    unfold walScan
    rw [if_neg (by rw [hlen]; omega)]
    have hdrop : (walHeader ps ++ (encodeRecords recs ++ suffix)).drop 32 =
        encodeRecords recs ++ suffix := by
      rw [show (32 : Nat) = (walHeader ps).length from hw.symm, List.drop_left]
    rw [hdrop, hlen]
    have hchain := replayScan_chain ps recs
      (32 + ((encodeRecords recs).length + suffix.length) - recs.length)
      suffix ⟨[], []⟩ hg
    rw [show recs.length + (32 + ((encodeRecords recs).length +
        suffix.length) - recs.length) =
      32 + ((encodeRecords recs).length + suffix.length) from by omega] at hchain
    exact hchain

theorem dropWhile_head_false (p : RawRecord → Bool) (l : List RawRecord)
    (a : RawRecord) (tl : List RawRecord) (h : l.dropWhile p = a :: tl) :
    p a = false := by
  induction l with
  | nil => simp at h
  | cons x xs ih =>
    rw [List.dropWhile_cons] at h
    by_cases hx : p x = true
    · rw [if_pos hx] at h
      exact ih h
    · rw [if_neg hx] at h
      cases h
      exact Bool.not_eq_true _ |>.mp hx

/-- C2: after WAL replay, a staged Page frame of transaction T is applied
iff the scan reached a Commit record of T.  On a log of well-formed
records holding at most one Commit of T: when some Commit of T is
present, the frames replay applies for T are exactly the Page frames of
T staged before the first Commit of T; when no Commit of T is present,
the committed map holds no entry for T at all, so none of the staged
pages of T are ever written to the data file. -/
theorem C2_page_applied_iff_commit (ps T : Nat) (recs : List RawRecord)
    (hg : ∀ r ∈ recs, GoodRec ps r)
    (hone : recs.countP (isCommitOf T) ≤ 1) :
    (recs.any (isCommitOf T) = true →
      appliedOf T (walScan ps (walHeader ps ++ encodeRecords recs)) =
        pagesOf T (recs.takeWhile (fun r => ! isCommitOf T r))) ∧
    (recs.any (isCommitOf T) = false →
      mapGet (walScan ps (walHeader ps ++ encodeRecords recs)).committed T =
        none) := by
  obtain ⟨f, _, hw⟩ := walScan_split ps recs [] hg
  rw [List.append_nil] at hw
  rw [hw, replayScan_nil]
  constructor
  · intro hany
    have hsplit := List.takeWhile_append_dropWhile
      (p := fun r => ! isCommitOf T r) (l := recs)
    cases hrest : recs.dropWhile (fun r => ! isCommitOf T r) with
    | nil =>
      exfalso
      have hall : ∀ r ∈ recs, isCommitOf T r = false := by
        intro r hr
        rw [← hsplit, hrest, List.append_nil] at hr
        have := List.mem_takeWhile_imp hr
        simpa using this
      rw [List.any_eq_true] at hany
      obtain ⟨r, hr, hp⟩ := hany
      rw [hall r hr] at hp
      exact Bool.false_ne_true hp
    | cons cm post =>
      have hpre : ∀ r ∈ recs.takeWhile (fun r => ! isCommitOf T r),
          isCommitOf T r = false := by
        intro r hr
        have := List.mem_takeWhile_imp hr
        simpa using this
      have hcm : isCommitOf T cm = true := by
        have := dropWhile_head_false _ recs cm post hrest
        simpa using this
      have hrecs2 : recs =
          (recs.takeWhile (fun r => ! isCommitOf T r)) ++ cm :: post := by
        rw [← hrest, hsplit]
      have hpost : ∀ r ∈ post, isCommitOf T r = false := by
        have hc0 : (recs.takeWhile (fun r => ! isCommitOf T r)).countP
            (isCommitOf T) = 0 :=
          List.countP_eq_zero.mpr
            (fun a ha => by rw [hpre a ha]; exact Bool.false_ne_true)
        rw [hrecs2, List.countP_append, hc0,
          List.countP_cons_of_pos _ _ hcm] at hone
        intro r hr
        have h0 : post.countP (isCommitOf T) = 0 := by omega
        have := List.countP_eq_zero.mp h0 r hr
        exact Bool.not_eq_true _ |>.mp this
      nth_rewrite 1 [hrecs2]
      rw [show scanRecs ((recs.takeWhile (fun r => ! isCommitOf T r)) ++
          cm :: post) ⟨[], []⟩ =
        scanRecs post (stepRec
          (scanRecs (recs.takeWhile (fun r => ! isCommitOf T r)) ⟨[], []⟩)
          cm) from by unfold scanRecs; rw [List.foldl_append]; rfl]
      unfold appliedOf
      rw [scanRecs_committed_noCommit post _ T hpost,
        stepRec_commit _ _ _ hcm]
      have hgetD := scanRecs_pending_getD
        (recs.takeWhile (fun r => ! isCommitOf T r)) ⟨[], []⟩ T hpre
      rw [show (mapGet (⟨[], []⟩ : ScanState).pending T).getD [] = [] from rfl,
        List.nil_append] at hgetD
      have hisS := scanRecs_pending_isSome
        (recs.takeWhile (fun r => ! isCommitOf T r)) ⟨[], []⟩ T hpre
      rw [show (mapGet (⟨[], []⟩ : ScanState).pending T).isSome = false from
        rfl, Bool.false_or] at hisS
      cases hp : mapGet (scanRecs
          (recs.takeWhile (fun r => ! isCommitOf T r)) ⟨[], []⟩).pending T with
      | some fs =>
        rw [hp] at hgetD
        simp only [Option.getD_some] at hgetD
        exact hgetD
      | none =>
        rw [hp] at hisS
        have hany0 : (recs.takeWhile (fun r => ! isCommitOf T r)).any
            (isTxRec T) = false := by simpa using hisS.symm
        have hnotx : ∀ r ∈ recs.takeWhile (fun r => ! isCommitOf T r),
            isTxRec T r = false := by
          intro r hr
          have := List.any_eq_false.mp hany0 r hr
          exact Bool.not_eq_true _ |>.mp this
        simp only []
        rw [scanRecs_committed_noCommit _ _ T hpre,
          pagesOf_eq_nil_of_no_txRec T _ hnotx]
        rfl
  · intro hnone
    have hall : ∀ r ∈ recs, isCommitOf T r = false := by
      intro r hr
      have := List.any_eq_false.mp hnone r hr
      exact Bool.not_eq_true _ |>.mp this
    rw [scanRecs_committed_noCommit recs ⟨[], []⟩ T hall]
    rfl

/-- Witness for C2: on a three-record log (Begin 7, Page 7 with a
matching checksum, Commit 7) the frame is applied, and on a two-record
log of transaction 9 with no Commit nothing is applied. -/
theorem C2_page_applied_iff_commit_witness :
    appliedOf 7 (walScan 1 (walHeader 1 ++ encodeRecords
        ([⟨0, 7, 0, 0, []⟩, ⟨1, 7, 3, 5, [5]⟩, ⟨2, 7, 0, 0, []⟩] :
          List RawRecord))) = [⟨3, [5]⟩] ∧
    appliedOf 9 (walScan 1 (walHeader 1 ++ encodeRecords
        ([⟨0, 9, 0, 0, []⟩, ⟨1, 9, 4, 6, [6]⟩] : List RawRecord))) = [] := by
  constructor
  · have h := (C2_page_applied_iff_commit 1 7
      ([⟨0, 7, 0, 0, []⟩, ⟨1, 7, 3, 5, [5]⟩, ⟨2, 7, 0, 0, []⟩] :
        List RawRecord) (by decide) (by decide)).1 (by decide)
    rw [h]
    decide
  · have h := (C2_page_applied_iff_commit 1 9
      ([⟨0, 9, 0, 0, []⟩, ⟨1, 9, 4, 6, [6]⟩] : List RawRecord)
      (by decide) (by decide)).2 (by decide)
    unfold appliedOf
    rw [h]
    rfl

/-- C3: during the replay scan, a Page record whose length field differs
from pageSize stops the scan, a Page record whose payload would overrun
the file end stops the scan, and a record of unknown type stops the
scan, each leaving exactly the state collected from the records before
it (so every frame committed before the stop is still applied), while a
Page record whose checksum does not match the byte-sum of its payload is
dropped individually and the scan continues with the following
records. -/
theorem C3_torn_tail_and_checksum (ps : Nat) (pre post : List RawRecord)
    (t x pn ln c : Nat) (junk : Bytes) (rbad : RawRecord)
    (hg : ∀ r ∈ pre, GoodRec ps r) (hgp : ∀ r ∈ post, GoodRec ps r)
    (ht : 3 ≤ t) (ht32 : t < 2 ^ 32) (hx : x < 2 ^ 32) (hpn : pn < 2 ^ 32)
    (hln : ln < 2 ^ 32) (hc : c < 2 ^ 32)
    (hbt : rbad.rtype = 1) (hbx : rbad.txId < 2 ^ 32)
    (hbpn : rbad.pageNumber < 2 ^ 32) (hbc : rbad.checksum < 2 ^ 32)
    (hblen : rbad.payload.length < 2 ^ 32)
    (hbb : ∀ b ∈ rbad.payload, b < 256) (hbps : rbad.payload.length = ps)
    (hbad : rbad.checksum ≠ checksumBuffer rbad.payload) :
    walScan ps (walHeader ps ++
        (encodeRecords pre ++ (encHeader t x pn ln c ++ junk))) =
      scanRecs pre ⟨[], []⟩ ∧
    (ln ≠ ps →
      walScan ps (walHeader ps ++
          (encodeRecords pre ++ (encHeader 1 x pn ln c ++ junk))) =
        scanRecs pre ⟨[], []⟩) ∧
    (junk.length < ln →
      walScan ps (walHeader ps ++
          (encodeRecords pre ++ (encHeader 1 x pn ln c ++ junk))) =
        scanRecs pre ⟨[], []⟩) ∧
    walScan ps (walHeader ps ++
        (encodeRecords pre ++ (encodeRecord rbad ++ encodeRecords post))) =
      scanRecs (pre ++ post) ⟨[], []⟩ := by
  refine ⟨?_, ?_, ?_, ?_⟩
  · obtain ⟨f, hf, hw⟩ := walScan_split ps pre (encHeader t x pn ln c ++ junk) hg
    rw [hw, replayScan_stop_unknown ps f t x pn ln c junk _ ht ht32 hx hpn hln hc]
  · intro hne
    obtain ⟨f, hf, hw⟩ := walScan_split ps pre (encHeader 1 x pn ln c ++ junk) hg
    rw [hw, replayScan_stop_page ps f x pn ln c junk _ hx hpn hln hc (Or.inl hne)]
  · intro hover
    obtain ⟨f, hf, hw⟩ := walScan_split ps pre (encHeader 1 x pn ln c ++ junk) hg
    rw [hw, replayScan_stop_page ps f x pn ln c junk _ hx hpn hln hc (Or.inr hover)]
  · obtain ⟨f, hf, hw⟩ :=
      walScan_split ps pre (encodeRecord rbad ++ encodeRecords post) hg
    have hfl : 1 + post.length ≤ f := by
      have h1 := length_encodeRecords_ge post
      have h2 := length_encodeRecord rbad
      rw [List.length_append, h2] at hf
      omega
    obtain ⟨g, rfl⟩ : ∃ g, f = g + 1 := ⟨f - 1, by omega⟩
    rw [hw, replayScan_skip_checksum ps g rbad (encodeRecords post) _
      hbt hbx hbpn hbc hblen hbb hbps hbad]
    rw [show scanRecs (pre ++ post) (⟨[], []⟩ : ScanState) =
      scanRecs post (scanRecs pre ⟨[], []⟩) from by
        unfold scanRecs; rw [List.foldl_append]]
    rw [show encodeRecords post = encodeRecords post ++ [] from
      (List.append_nil _).symm]
    rw [show g = post.length + (g - post.length) from by omega]
    rw [replayScan_chain ps post (g - post.length) [] _ hgp,
      replayScan_nil]

/-- Witness for C3: concrete stopped and continued scans at pageSize 1:
an unknown type 5 record, a Page record with length field 3 at pageSize
1, and a checksum-mismatch Page record between two Begin records. -/
theorem C3_torn_tail_and_checksum_witness :
    walScan 1 (walHeader 1 ++ (encodeRecords ([⟨0, 7, 0, 0, []⟩] :
        List RawRecord) ++ (encHeader 5 1 2 3 4 ++ [9, 9]))) =
      scanRecs [⟨0, 7, 0, 0, []⟩] ⟨[], []⟩ ∧
    walScan 1 (walHeader 1 ++ (encodeRecords ([⟨0, 7, 0, 0, []⟩] :
        List RawRecord) ++ (encHeader 1 1 2 3 4 ++ [9, 9]))) =
      scanRecs [⟨0, 7, 0, 0, []⟩] ⟨[], []⟩ ∧
    walScan 1 (walHeader 1 ++ (encodeRecords ([⟨0, 7, 0, 0, []⟩] :
        List RawRecord) ++ (encodeRecord ⟨1, 7, 3, 9, [5]⟩ ++
          encodeRecords ([⟨0, 9, 0, 0, []⟩] : List RawRecord)))) =
      scanRecs ([⟨0, 7, 0, 0, []⟩] ++ [⟨0, 9, 0, 0, []⟩]) ⟨[], []⟩ := by
  have h := C3_torn_tail_and_checksum 1 [⟨0, 7, 0, 0, []⟩] [⟨0, 9, 0, 0, []⟩]
    5 1 2 3 4 [9, 9] ⟨1, 7, 3, 9, [5]⟩
    (by decide) (by decide) (by decide) (by decide) (by decide) (by decide)
    (by decide) (by decide) (by decide) (by decide) (by decide) (by decide)
    (by decide) (by decide) (by decide) (by decide)
  exact ⟨h.1, h.2.1 (by decide), h.2.2.2⟩

end WAL

namespace Pages

theorem writeBytes_outside (bs : List Nat) (b : Buf) (off i : Nat)
    (h : i < off ∨ off + bs.length ≤ i) : writeBytes b off bs i = b i := by
  induction bs generalizing b off with
  | nil => rfl
  | cons v vs ih =>
    show writeBytes (fun j => if j = off then v % 256 else b j) (off + 1) vs i = b i
    rw [ih _ (off + 1) (by simp at h; omega)]
    rw [if_neg (by simp at h; omega)]

theorem writeBytes_getD (bs : List Nat) (b : Buf) (off j : Nat)
    (h : j < bs.length) :
    writeBytes b off bs (off + j) = bs.getD j 0 % 256 := by
  induction bs generalizing b off j with
  | nil => simp at h
  | cons v vs ih =>
    match j with
    | 0 =>
      show writeBytes (fun k => if k = off then v % 256 else b k) (off + 1) vs (off + 0) = v % 256
      rw [writeBytes_outside vs _ (off + 1) (off + 0) (by omega)]
      simp
    | j + 1 =>
      show writeBytes (fun k => if k = off then v % 256 else b k) (off + 1) vs (off + (j + 1)) = vs.getD j 0 % 256
      rw [show off + (j + 1) = (off + 1) + j from by omega]
      exact ih _ (off + 1) j (by simp at h; omega)

theorem readU16_writeBytes_disjoint (bs : List Nat) (b : Buf) (off off2 : Nat)
    (h : off + 2 ≤ off2 ∨ off2 + bs.length ≤ off) :
    readU16 (writeBytes b off2 bs) off = readU16 b off := by
  unfold readU16
  rw [writeBytes_outside bs b off2 off (by omega),
    writeBytes_outside bs b off2 (off + 1) (by omega)]

theorem readU32_writeBytes_disjoint (bs : List Nat) (b : Buf) (off off2 : Nat)
    (h : off + 4 ≤ off2 ∨ off2 + bs.length ≤ off) :
    readU32 (writeBytes b off2 bs) off = readU32 b off := by
  unfold readU32
  rw [writeBytes_outside bs b off2 off (by omega),
    writeBytes_outside bs b off2 (off + 1) (by omega),
    writeBytes_outside bs b off2 (off + 2) (by omega),
    writeBytes_outside bs b off2 (off + 3) (by omega)]

theorem readU8_writeBytes_disjoint (bs : List Nat) (b : Buf) (off off2 : Nat)
    (h : off + 1 ≤ off2 ∨ off2 + bs.length ≤ off) :
    readU8 (writeBytes b off2 bs) off = readU8 b off := by
  unfold readU8
  rw [writeBytes_outside bs b off2 off (by omega)]

theorem subarray_writeBytes_disjoint (bs : List Nat) (b : Buf)
    (start stop off2 : Nat) (h : stop ≤ off2 ∨ off2 + bs.length ≤ start) :
    subarray (writeBytes b off2 bs) start stop = subarray b start stop := by
  unfold subarray
  apply List.map_congr_left
  intro i hi
  rw [List.mem_range] at hi
  exact writeBytes_outside bs b off2 (start + i) (by omega)

theorem length_encU16 (v : Nat) : (encU16 v).length = 2 := rfl

theorem length_encU32 (v : Nat) : (encU32 v).length = 4 := rfl

theorem readU16_writeU16 (b : Buf) (off v : Nat) (hv : v < 2 ^ 16) :
    readU16 (writeU16 b off v) off = v := by
  unfold writeU16
  unfold readU16
  have h0 := writeBytes_getD (encU16 v) b off 0 (by rw [length_encU16]; omega)
  have h1 := writeBytes_getD (encU16 v) b off 1 (by rw [length_encU16]; omega)
  rw [show off + 0 = off from by omega] at h0
  rw [h0, h1]
  simp only [encU16, List.getD]
  simp
  omega

theorem readU32_writeU32 (b : Buf) (off v : Nat) (hv : v < 2 ^ 32) :
    readU32 (writeU32 b off v) off = v := by
  unfold writeU32
  unfold readU32
  have h0 := writeBytes_getD (encU32 v) b off 0 (by rw [length_encU32]; omega)
  have h1 := writeBytes_getD (encU32 v) b off 1 (by rw [length_encU32]; omega)
  have h2 := writeBytes_getD (encU32 v) b off 2 (by rw [length_encU32]; omega)
  have h3 := writeBytes_getD (encU32 v) b off 3 (by rw [length_encU32]; omega)
  rw [show off + 0 = off from by omega] at h0
  rw [h0, h1, h2, h3]
  simp only [encU32, List.getD]
  simp
  omega

theorem subarray_writeBytes_self (bs : List Nat) (b : Buf) (off : Nat) :
    subarray (writeBytes b off bs) off (off + bs.length) =
      bs.map (fun v => v % 256) := by
  unfold subarray
  apply List.ext_getElem
  · simp
  · intro i h1 h2
    simp only [List.getElem_map, List.getElem_range]
    rw [writeBytes_getD bs b off i (by simpa using h1)]
    congr 1
    rw [List.getD_eq_getElem?_getD]
    rw [List.getElem?_eq_getElem (by simpa using h1)]
    rfl

theorem subarray_congr (b1 b2 : Buf) (start stop : Nat)
    (h : ∀ j, start ≤ j → j < stop → b1 j = b2 j) :
    subarray b1 start stop = subarray b2 start stop := by
  unfold subarray
  apply List.map_congr_left
  intro i hi
  rw [List.mem_range] at hi
  exact h (start + i) (by omega) (by omega)

theorem readU16_eq_of_agree (b1 b2 : Buf) (off : Nat)
    (h0 : b1 off = b2 off) (h1 : b1 (off + 1) = b2 (off + 1)) :
    readU16 b1 off = readU16 b2 off := by
  unfold readU16
  rw [h0, h1]

theorem readU32_eq_of_agree (b1 b2 : Buf) (off : Nat)
    (h0 : b1 off = b2 off) (h1 : b1 (off + 1) = b2 (off + 1))
    (h2 : b1 (off + 2) = b2 (off + 2)) (h3 : b1 (off + 3) = b2 (off + 3)) :
    readU32 b1 off = readU32 b2 off := by
  unfold readU32
  rw [h0, h1, h2, h3]

theorem totalRecordSize_cons (c : LeafCellB) (cs : List LeafCellB) :
    totalRecordSize (c :: cs) = cellRecordSize c + totalRecordSize cs := by
  unfold totalRecordSize
  rw [List.map_cons, List.sum_cons]

theorem bigintToBuffer_spec (k : Nat) (hk : k < 2 ^ 64) :
    ∃ kb, bigintToBuffer k = .ok kb ∧ kb.length = 8 ∧
      (∀ x ∈ kb, x < 256) ∧
      kb.foldl (fun v byte => v * 256 + byte) 0 = k ∧
      kb.map (fun v => v % 256) = kb := by
  refine ⟨[k / 72057594037927936 % 256, k / 281474976710656 % 256,
    k / 1099511627776 % 256, k / 4294967296 % 256, k / 16777216 % 256,
    k / 65536 % 256, k / 256 % 256, k % 256], ?_, rfl, ?_, ?_, ?_⟩
  · unfold bigintToBuffer
    rw [if_pos hk]
  · intro x hx
    simp at hx
    rcases hx with h | h | h | h | h | h | h | h <;> omega
  · simp only [List.foldl]
    omega
  · simp [Nat.mod_mod_of_dvd]

set_option maxHeartbeats 1000000 in
theorem serializeLeafCells_spec (cells : List LeafCellB) (b : Buf) (i pv : Nat)
    (hkeys : ∀ c ∈ cells, c.key < 2 ^ 64)
    (hvals : ∀ c ∈ cells, c.valueLength < 2 ^ 32 ∧ c.overflowPage < 2 ^ 32 ∧
      ∀ x ∈ c.inlineValue, x < 256)
    (hfit : 32 + 2 * (i + cells.length) + totalRecordSize cells ≤ pv)
    (hpv16 : pv < 2 ^ 16) :
    ∃ (B : Buf) (pf : Nat), serializeLeafCells cells b (32 + 2 * i)
        (pv : Int) = .ok (B, (pf : Int)) ∧
      32 + 2 * (i + cells.length) ≤ pf ∧ pf ≤ pv ∧
      (∀ j, ¬ (32 + 2 * i ≤ j ∧ j < 32 + 2 * (i + cells.length)) →
        ¬ (pf ≤ j ∧ j < pv) → B j = b j) ∧
      (∀ B2 : Buf, (∀ j, 32 ≤ j → B2 j = B j) →
        deserializeLeafCells B2 i cells.length = .ok cells) := by
  induction cells generalizing b i pv with
  | nil =>
    refine ⟨b, pv, rfl, ?_, le_refl pv, fun j h1 h2 => rfl, fun B2 hB2 => rfl⟩
    simp only [totalRecordSize, List.map_nil, List.sum_nil, List.length_nil,
      Nat.add_zero] at hfit ⊢
    omega
  | cons c rest ih =>
    obtain ⟨kb, hbk, hkb8, hkbB, hkbF, hkbM⟩ :=
      bigintToBuffer_spec c.key (hkeys c (by simp))
    have hfit1 := hfit
    rw [totalRecordSize_cons] at hfit1
    simp only [List.length_cons] at hfit1
    have hrec : cellRecordSize c = 20 + c.inlineValue.length := by
      unfold cellRecordSize
      omega
    rw [hrec] at hfit1
    have hstep : serializeLeafCells (c :: rest) b (32 + 2 * i) (pv : Int) =
        (if (pv : Int) - (12 + kb.length + c.inlineValue.length) ≤
            ((32 + 2 * i : Nat) : Int) then
          (.error "Leaf page overflow" : Except String (Buf × Int))
        else
          serializeLeafCells rest
            (writeU16 (writeBytes (writeBytes (writeU32 (writeU32 (writeU16
              (writeU16 b ((pv : Int) - (12 + kb.length +
                c.inlineValue.length)).toNat kb.length)
              (((pv : Int) - (12 + kb.length +
                c.inlineValue.length)).toNat + 2) c.inlineValue.length)
              (((pv : Int) - (12 + kb.length +
                c.inlineValue.length)).toNat + 4) c.valueLength)
              (((pv : Int) - (12 + kb.length +
                c.inlineValue.length)).toNat + 8) c.overflowPage)
              (((pv : Int) - (12 + kb.length +
                c.inlineValue.length)).toNat + 12) kb)
              (((pv : Int) - (12 + kb.length +
                c.inlineValue.length)).toNat + 12 + kb.length) c.inlineValue)
              (32 + 2 * i)
              (((pv : Int) - (12 + kb.length + c.inlineValue.length)).toNat))
            (32 + 2 * i + 2)
            ((pv : Int) - (12 + kb.length + c.inlineValue.length))) := by
      simp only [serializeLeafCells, hbk]
      rfl
    have hoffE : (pv : Int) - (12 + kb.length + c.inlineValue.length) =
        ((pv - (20 + c.inlineValue.length) : Nat) : Int) := by
      rw [hkb8]
      omega
    rw [hoffE] at hstep
    rw [Int.toNat_natCast] at hstep
    rw [if_neg (by
      simp only [Int.not_le]
      have : (32 + 2 * i : Nat) + 1 ≤ pv - (20 + c.inlineValue.length) := by
        omega
      omega)] at hstep
    set b1 : Buf :=
      (writeU16 (writeBytes (writeBytes (writeU32 (writeU32 (writeU16
        (writeU16 b (pv - (20 + c.inlineValue.length)) kb.length)
        (pv - (20 + c.inlineValue.length) + 2) c.inlineValue.length)
        (pv - (20 + c.inlineValue.length) + 4) c.valueLength)
        (pv - (20 + c.inlineValue.length) + 8) c.overflowPage)
        (pv - (20 + c.inlineValue.length) + 12) kb)
        (pv - (20 + c.inlineValue.length) + 12 + kb.length) c.inlineValue)
        (32 + 2 * i) (pv - (20 + c.inlineValue.length))) with hb1
    have ihres := ih b1 (i + 1) (pv - (20 + c.inlineValue.length))
      (fun x hx => hkeys x (by simp [hx]))
      (fun x hx => hvals x (by simp [hx]))
      (by omega) (by omega)
    obtain ⟨B, pf, hser, hpf1, hpf2, hframe, hdeser⟩ := ihres
    rw [show 32 + 2 * (i + 1) = 32 + 2 * i + 2 from by omega] at hser
    refine ⟨B, pf, by rw [hstep]; exact hser,
      by simp only [List.length_cons]; omega, by omega, ?_, ?_⟩
    · intro j hj1 hj2
      simp only [List.length_cons] at hj1
      rw [hframe j (by omega) (by omega), hb1]
      unfold writeU16 writeU32
      rw [writeBytes_outside _ _ _ j (by rw [length_encU16]; omega)]
      rw [writeBytes_outside _ _ _ j (by omega)]
      rw [writeBytes_outside _ _ _ j (by omega)]
      rw [writeBytes_outside _ _ _ j (by rw [length_encU32]; omega)]
      rw [writeBytes_outside _ _ _ j (by rw [length_encU32]; omega)]
      rw [writeBytes_outside _ _ _ j (by rw [length_encU16]; omega)]
      rw [writeBytes_outside _ _ _ j (by rw [length_encU16]; omega)]
    · intro B2 hB2
      have hge : 32 + 2 * ((i + 1) + rest.length) ≤ pf := hpf1
      have hag : ∀ j, 32 ≤ j →
          ¬ (32 + 2 * (i + 1) ≤ j ∧ j < 32 + 2 * ((i + 1) + rest.length)) →
          ¬ (pf ≤ j ∧ j < pv - (20 + c.inlineValue.length)) → B2 j = b1 j :=
        fun j h1 h2 h3 => (hB2 j h1).trans (hframe j h2 h3)
      have hcell : readU16 B2 (32 + 2 * i) = pv - (20 + c.inlineValue.length) := by
        rw [readU16_eq_of_agree B2 b1 _
          (hag _ (by omega) (by omega) (by omega))
          (hag _ (by omega) (by omega) (by omega))]
        rw [hb1]
        exact readU16_writeU16 _ _ _ (by omega)
      have hklen : readU16 B2 (pv - (20 + c.inlineValue.length)) = kb.length := by
        rw [readU16_eq_of_agree B2 b1 _
          (hag _ (by omega) (by omega) (by omega))
          (hag _ (by omega) (by omega) (by omega))]
        rw [hb1]
        unfold writeU16 writeU32
        rw [readU16_writeBytes_disjoint _ _ _ _ (by rw [length_encU16]; omega)]
        rw [readU16_writeBytes_disjoint _ _ _ _ (by omega)]
        rw [readU16_writeBytes_disjoint _ _ _ _ (by omega)]
        rw [readU16_writeBytes_disjoint _ _ _ _ (by rw [length_encU32]; omega)]
        rw [readU16_writeBytes_disjoint _ _ _ _ (by rw [length_encU32]; omega)]
        rw [readU16_writeBytes_disjoint _ _ _ _ (by rw [length_encU16]; omega)]
        exact readU16_writeU16 _ _ _ (by rw [hkb8]; omega)
      have hklen8 : readU16 B2 (pv - (20 + c.inlineValue.length)) = 8 := by rw [hklen, hkb8]
      have hilen : readU16 B2 (pv - (20 + c.inlineValue.length) + 2) = c.inlineValue.length := by
        rw [readU16_eq_of_agree B2 b1 _
          (hag _ (by omega) (by omega) (by omega))
          (hag _ (by omega) (by omega) (by omega))]
        rw [hb1]
        unfold writeU16 writeU32
        rw [readU16_writeBytes_disjoint _ _ _ _ (by rw [length_encU16]; omega)]
        rw [readU16_writeBytes_disjoint _ _ _ _ (by omega)]
        rw [readU16_writeBytes_disjoint _ _ _ _ (by omega)]
        rw [readU16_writeBytes_disjoint _ _ _ _ (by rw [length_encU32]; omega)]
        rw [readU16_writeBytes_disjoint _ _ _ _ (by rw [length_encU32]; omega)]
        exact readU16_writeU16 _ _ _ (by omega)
      have hvl : readU32 B2 (pv - (20 + c.inlineValue.length) + 4) = c.valueLength := by
        rw [readU32_eq_of_agree B2 b1 _
          (hag _ (by omega) (by omega) (by omega))
          (hag _ (by omega) (by omega) (by omega))
          (hag _ (by omega) (by omega) (by omega))
          (hag _ (by omega) (by omega) (by omega))]
        rw [hb1]
        unfold writeU16 writeU32
        rw [readU32_writeBytes_disjoint _ _ _ _ (by rw [length_encU16]; omega)]
        rw [readU32_writeBytes_disjoint _ _ _ _ (by omega)]
        rw [readU32_writeBytes_disjoint _ _ _ _ (by omega)]
        rw [readU32_writeBytes_disjoint _ _ _ _ (by rw [length_encU32]; omega)]
        exact readU32_writeU32 _ _ _ (hvals c (by simp)).1
      have hovf : readU32 B2 (pv - (20 + c.inlineValue.length) + 8) = c.overflowPage := by
        rw [readU32_eq_of_agree B2 b1 _
          (hag _ (by omega) (by omega) (by omega))
          (hag _ (by omega) (by omega) (by omega))
          (hag _ (by omega) (by omega) (by omega))
          (hag _ (by omega) (by omega) (by omega))]
        rw [hb1]
        unfold writeU16 writeU32
        rw [readU32_writeBytes_disjoint _ _ _ _ (by rw [length_encU16]; omega)]
        rw [readU32_writeBytes_disjoint _ _ _ _ (by omega)]
        rw [readU32_writeBytes_disjoint _ _ _ _ (by omega)]
        exact readU32_writeU32 _ _ _ (hvals c (by simp)).2.1
      have hkbsub : subarray B2 (pv - (20 + c.inlineValue.length) + 12) (pv - (20 + c.inlineValue.length) + 12 + 8) = kb := by
        rw [subarray_congr B2 b1 _ _
          (fun j hja hjb => hag j (by omega) (by omega) (by omega))]
        rw [hb1]
        unfold writeU16 writeU32
        rw [subarray_writeBytes_disjoint _ _ _ _ _ (by rw [length_encU16]; omega)]
        rw [subarray_writeBytes_disjoint _ _ _ _ _ (by omega)]
        rw [show pv - (20 + c.inlineValue.length) + 12 + 8 = pv - (20 + c.inlineValue.length) + 12 + kb.length from by omega]
        rw [subarray_writeBytes_self]
        exact hkbM
      have hkey : bufferToBigInt (subarray B2 (pv - (20 + c.inlineValue.length) + 12) (pv - (20 + c.inlineValue.length) + 12 + 8)) =
          .ok c.key := by
        rw [hkbsub]
        unfold bufferToBigInt
        rw [if_pos (by rw [hkb8]; rfl)]
        rw [hkbF]
      have hinl : subarray B2 (pv - (20 + c.inlineValue.length) + 12 + 8)
          (pv - (20 + c.inlineValue.length) + 12 + 8 + c.inlineValue.length) = c.inlineValue := by
        rw [subarray_congr B2 b1 _ _
          (fun j hja hjb => hag j (by omega) (by omega) (by omega))]
        rw [hb1]
        unfold writeU16 writeU32
        rw [subarray_writeBytes_disjoint _ _ _ _ _ (by rw [length_encU16]; omega)]
        rw [show pv - (20 + c.inlineValue.length) + 12 + 8 = pv - (20 + c.inlineValue.length) + 12 + kb.length from by omega]
        rw [subarray_writeBytes_self]
        rw [List.map_congr_left
          (fun x hx => Nat.mod_eq_of_lt ((hvals c (by simp)).2.2 x hx))]
        exact List.map_id _
      have hrest := hdeser B2 hB2
      have hnz : ¬ (pv - (20 + c.inlineValue.length)) = 0 := by omega
      simp only [List.length_cons, deserializeLeafCells]
      rw [show BPT.PAGE_HEADER_SIZE + i * 2 = 32 + 2 * i from by
        show 32 + i * 2 = 32 + 2 * i
        omega]
      rw [hcell]
      rw [if_neg hnz]
      rw [hklen8, hilen, hvl, hovf, hkey, hinl, hrest]
      rfl

theorem leaf_roundtrip (page : LeafPageB) (ps : Nat)
    (hkc : page.keyCount = page.cells.length)
    (hkeys : ∀ c ∈ page.cells, c.key < 2 ^ 64)
    (hvals : ∀ c ∈ page.cells, c.valueLength < 2 ^ 32 ∧
      c.overflowPage < 2 ^ 32 ∧ ∀ x ∈ c.inlineValue, x < 256)
    (hrs : page.rightSibling < 2 ^ 32)
    (hcount : page.cells.length ≤ BPT.MAX_LEAF_KEYS)
    (hfit : 32 + 2 * page.cells.length + totalRecordSize page.cells ≤ ps)
    (hps : ps < 2 ^ 16) :
    ∃ B, serializeLeaf page ps = .ok B ∧ deserializeLeaf B = .ok page := by
  obtain ⟨B, pf, hser, hpf1, hpf2, hframe, hdeser⟩ :=
    serializeLeafCells_spec page.cells
      (writeU32 (writeU16 (writeU8 bufZero 0 2) 2 page.cells.length) 4
        page.rightSibling) 0 ps hkeys hvals (by omega) hps
  have hn16 : page.cells.length < 2 ^ 16 := by
    have hm : BPT.MAX_LEAF_KEYS = 184 := rfl
    omega
  have hser2 : serializeLeaf page ps = .ok (writeU16 B 8 pf) := by
    unfold serializeLeaf
    rw [if_neg (by omega)]
    simp only []
    rw [show serializeLeafCells page.cells
      (writeU32 (writeU16 (writeU8 bufZero 0 2) 2 page.cells.length) 4
        page.rightSibling) BPT.PAGE_HEADER_SIZE (ps : Int) =
      serializeLeafCells page.cells
        (writeU32 (writeU16 (writeU8 bufZero 0 2) 2 page.cells.length) 4
          page.rightSibling) (32 + 2 * 0) (ps : Int) from rfl]
    rw [hser]
    show Except.ok (writeU16 B 8 ((pf : Int)).toNat) = _
    rw [Int.toNat_natCast]
  refine ⟨writeU16 B 8 pf, hser2, ?_⟩
  have hagree : ∀ j, 32 ≤ j → writeU16 B 8 pf j = B j := by
    intro j hj
    show writeBytes B 8 (encU16 pf) j = B j
    exact writeBytes_outside _ _ _ _ (by rw [length_encU16]; omega)
  have htype : readU8 (writeU16 B 8 pf) 0 = 2 := by
    show readU8 (writeBytes B 8 (encU16 pf)) 0 = 2
    rw [readU8_writeBytes_disjoint _ _ _ _ (by rw [length_encU16]; omega)]
    unfold readU8
    rw [hframe 0 (by omega) (by omega)]
    show writeBytes _ 4 (encU32 page.rightSibling) 0 = 2
    rw [writeBytes_outside _ _ _ _ (by rw [length_encU32]; omega)]
    show writeBytes _ 2 (encU16 page.cells.length) 0 = 2
    rw [writeBytes_outside _ _ _ _ (by rw [length_encU16]; omega)]
    show writeBytes bufZero 0 [2] (0 + 0) = 2
    rw [writeBytes_getD [2] bufZero 0 0 (by simp)]
    rfl
  have hkc2 : readU16 (writeU16 B 8 pf) 2 = page.cells.length := by
    show readU16 (writeBytes B 8 (encU16 pf)) 2 = _
    rw [readU16_writeBytes_disjoint _ _ _ _ (by rw [length_encU16]; omega)]
    rw [readU16_eq_of_agree B
      (writeU32 (writeU16 (writeU8 bufZero 0 2) 2 page.cells.length) 4
        page.rightSibling) 2
      (hframe 2 (by omega) (by omega)) (hframe 3 (by omega) (by omega))]
    show readU16 (writeBytes _ 4 (encU32 page.rightSibling)) 2 = _
    rw [readU16_writeBytes_disjoint _ _ _ _ (by rw [length_encU32]; omega)]
    exact readU16_writeU16 _ _ _ hn16
  have hrs2 : readU32 (writeU16 B 8 pf) 4 = page.rightSibling := by
    show readU32 (writeBytes B 8 (encU16 pf)) 4 = _
    rw [readU32_writeBytes_disjoint _ _ _ _ (by rw [length_encU16]; omega)]
    rw [readU32_eq_of_agree B
      (writeU32 (writeU16 (writeU8 bufZero 0 2) 2 page.cells.length) 4
        page.rightSibling) 4
      (hframe 4 (by omega) (by omega)) (hframe 5 (by omega) (by omega))
      (hframe 6 (by omega) (by omega)) (hframe 7 (by omega) (by omega))]
    exact readU32_writeU32 _ _ _ hrs
  have hcells := hdeser (writeU16 B 8 pf) hagree
  unfold deserializeLeaf
  rw [htype]
  rw [if_neg (by omega)]
  simp only []
  rw [hkc2]
  rw [Nat.min_eq_left hcount]
  rw [hcells]
  show Except.ok ⟨page.cells.length, readU32 (writeU16 B 8 pf) 4,
    page.cells⟩ = Except.ok page
  rw [hrs2, ← hkc]

theorem serializeInternalCells_spec (cells : List InternalCellB) (b : Buf)
    (off : Nat)
    (hkeys : ∀ c ∈ cells, c.key < 2 ^ 64)
    (hch : ∀ c ∈ cells, c.child < 2 ^ 32) :
    ∃ B, serializeInternalCells cells b off = .ok B ∧
      (∀ j, j < off → B j = b j) ∧
      (∀ B2 : Buf, (∀ j, off ≤ j → B2 j = B j) →
        deserializeInternalCells B2 off cells.length = .ok cells) := by
  induction cells generalizing b off with
  | nil => exact ⟨b, rfl, fun j hj => rfl, fun B2 hB2 => rfl⟩
  | cons c rest ih =>
    obtain ⟨kb, hbk, hkb8, hkbB, hkbF, hkbM⟩ :=
      bigintToBuffer_spec c.key (hkeys c (by simp))
    have hstep : serializeInternalCells (c :: rest) b off =
        serializeInternalCells rest
          (writeU32 (writeBytes b off kb) (off + 8) c.child)
          (off + 8 + 4) := by
      simp only [serializeInternalCells, hbk,
        show BPT.KEY_SIZE_BYTES = 8 from rfl]
      rfl
    obtain ⟨B, hser, hframe, hdeser⟩ := ih
      (writeU32 (writeBytes b off kb) (off + 8) c.child) (off + 8 + 4)
      (fun x hx => hkeys x (by simp [hx])) (fun x hx => hch x (by simp [hx]))
    refine ⟨B, by rw [hstep]; exact hser, ?_, ?_⟩
    · intro j hj
      rw [hframe j (by omega)]
      show writeBytes _ (off + 8) (encU32 c.child) j = _
      rw [writeBytes_outside _ _ _ _ (by rw [length_encU32]; omega)]
      rw [writeBytes_outside _ _ _ _ (by omega)]
    · intro B2 hB2
      have hag : ∀ j, off ≤ j → j < off + 12 →
          B2 j = writeU32 (writeBytes b off kb) (off + 8) c.child j :=
        fun j h1 h2 => (hB2 j h1).trans (hframe j (by omega))
      have hkeysub : subarray B2 off (off + 8) = kb := by
        rw [subarray_congr B2
          (writeU32 (writeBytes b off kb) (off + 8) c.child) _ _
          (fun j h1 h2 => hag j h1 (by omega))]
        show subarray (writeBytes _ (off + 8) (encU32 c.child)) off
          (off + 8) = kb
        rw [subarray_writeBytes_disjoint _ _ _ _ _
          (by rw [length_encU32]; omega)]
        rw [show off + 8 = off + kb.length from by omega]
        rw [subarray_writeBytes_self]
        exact hkbM
      have hkey : bufferToBigInt (subarray B2 off (off + 8)) = .ok c.key := by
        rw [hkeysub]
        unfold bufferToBigInt
        rw [if_pos (by rw [hkb8]; rfl)]
        rw [hkbF]
      have hchild : readU32 B2 (off + 8) = c.child := by
        rw [readU32_eq_of_agree B2
          (writeU32 (writeBytes b off kb) (off + 8) c.child) _
          (hag _ (by omega) (by omega)) (hag _ (by omega) (by omega))
          (hag _ (by omega) (by omega)) (hag _ (by omega) (by omega))]
        exact readU32_writeU32 _ _ _ (hch c (by simp))
      have hrest := hdeser B2 (fun j hj => hB2 j (by omega))
      simp only [List.length_cons, deserializeInternalCells,
        show BPT.KEY_SIZE_BYTES = 8 from rfl]
      rw [hkey, hchild, hrest]
      rfl

theorem internal_roundtrip (page : InternalPageB)
    (hkc : page.keyCount = page.cells.length)
    (hkeys : ∀ c ∈ page.cells, c.key < 2 ^ 64)
    (hch : ∀ c ∈ page.cells, c.child < 2 ^ 32)
    (hlc : page.leftChild < 2 ^ 32) (hrs : page.rightSibling < 2 ^ 32)
    (hcount : page.cells.length ≤ BPT.MAX_INTERNAL_KEYS) :
    ∃ B, serializeInternal page = .ok B ∧
      deserializeInternal B = .ok page := by
  obtain ⟨B, hser, hframe, hdeser⟩ := serializeInternalCells_spec page.cells
    (writeU32 (writeU16 (writeU32 (writeU16 (writeU8 bufZero 0 1) 2
      page.cells.length) 4 page.rightSibling) 8 0) 32 page.leftChild)
    36 hkeys hch
  have hn16 : page.cells.length < 2 ^ 16 := by
    have hm : BPT.MAX_INTERNAL_KEYS = 338 := rfl
    omega
  have hser2 : serializeInternal page = .ok B := by
    unfold serializeInternal
    rw [if_neg (by omega)]
    simp only []
    exact hser
  refine ⟨B, hser2, ?_⟩
  have htype : readU8 B 0 = 1 := by
    unfold readU8
    rw [hframe 0 (by omega)]
    show writeBytes _ 32 (encU32 page.leftChild) 0 = 1
    rw [writeBytes_outside _ _ _ _ (by rw [length_encU32]; omega)]
    show writeBytes _ 8 (encU16 0) 0 = 1
    rw [writeBytes_outside _ _ _ _ (by rw [length_encU16]; omega)]
    show writeBytes _ 4 (encU32 page.rightSibling) 0 = 1
    rw [writeBytes_outside _ _ _ _ (by rw [length_encU32]; omega)]
    show writeBytes _ 2 (encU16 page.cells.length) 0 = 1
    rw [writeBytes_outside _ _ _ _ (by rw [length_encU16]; omega)]
    show writeBytes bufZero 0 [1] (0 + 0) = 1
    rw [writeBytes_getD [1] bufZero 0 0 (by simp)]
    rfl
  have hkc2 : readU16 B 2 = page.cells.length := by
    rw [readU16_eq_of_agree B
      (writeU32 (writeU16 (writeU32 (writeU16 (writeU8 bufZero 0 1) 2
        page.cells.length) 4 page.rightSibling) 8 0) 32 page.leftChild) 2
      (hframe 2 (by omega)) (hframe 3 (by omega))]
    show readU16 (writeBytes _ 32 (encU32 page.leftChild)) 2 = _
    rw [readU16_writeBytes_disjoint _ _ _ _ (by rw [length_encU32]; omega)]
    show readU16 (writeBytes _ 8 (encU16 0)) 2 = _
    rw [readU16_writeBytes_disjoint _ _ _ _ (by rw [length_encU16]; omega)]
    show readU16 (writeBytes _ 4 (encU32 page.rightSibling)) 2 = _
    rw [readU16_writeBytes_disjoint _ _ _ _ (by rw [length_encU32]; omega)]
    exact readU16_writeU16 _ _ _ hn16
  have hrs2 : readU32 B 4 = page.rightSibling := by
    rw [readU32_eq_of_agree B
      (writeU32 (writeU16 (writeU32 (writeU16 (writeU8 bufZero 0 1) 2
        page.cells.length) 4 page.rightSibling) 8 0) 32 page.leftChild) 4
      (hframe 4 (by omega)) (hframe 5 (by omega))
      (hframe 6 (by omega)) (hframe 7 (by omega))]
    show readU32 (writeBytes _ 32 (encU32 page.leftChild)) 4 = _
    rw [readU32_writeBytes_disjoint _ _ _ _ (by rw [length_encU32]; omega)]
    show readU32 (writeBytes _ 8 (encU16 0)) 4 = _
    rw [readU32_writeBytes_disjoint _ _ _ _ (by rw [length_encU16]; omega)]
    exact readU32_writeU32 _ _ _ hrs
  have hlc2 : readU32 B 32 = page.leftChild := by
    rw [readU32_eq_of_agree B
      (writeU32 (writeU16 (writeU32 (writeU16 (writeU8 bufZero 0 1) 2
        page.cells.length) 4 page.rightSibling) 8 0) 32 page.leftChild) 32
      (hframe 32 (by omega)) (hframe 33 (by omega))
      (hframe 34 (by omega)) (hframe 35 (by omega))]
    exact readU32_writeU32 _ _ _ hlc
  have hcells := hdeser B (fun j hj => rfl)
  unfold deserializeInternal
  rw [htype]
  rw [if_neg (by omega)]
  simp only []
  rw [hkc2, Nat.min_eq_left hcount]
  rw [show BPT.PAGE_HEADER_SIZE + 4 = 36 from rfl]
  rw [hcells]
  show Except.ok ⟨page.cells.length, readU32 B 4,
    readU32 B BPT.PAGE_HEADER_SIZE, page.cells⟩ = Except.ok page
  rw [hrs2, show BPT.PAGE_HEADER_SIZE = 32 from rfl, hlc2, ← hkc]

/-- C7: serializing a valid leaf page or a valid internal page into a
page-sized buffer and deserializing that buffer yields the original page
back: same cells with the same keys, inline values, total value lengths
and overflow heads for leaves, same separator keys, children, left child
and right sibling for internal pages.  Valid means: the stored key count
equals the cell count, every key fits 64 bits, every u32 field fits 32
bits, inline bytes are bytes, the cell count respects the per-type
maximum, and for a leaf the serialized size fits the page with pageSize
below 2 to the 16 (slot pointers and the payload offset are u16). -/
theorem C7_page_serialize_roundtrip
    (lp : LeafPageB) (ip : InternalPageB) (ps : Nat)
    (hl1 : lp.keyCount = lp.cells.length)
    (hl2 : ∀ c ∈ lp.cells, c.key < 2 ^ 64)
    (hl3 : ∀ c ∈ lp.cells, c.valueLength < 2 ^ 32 ∧
      c.overflowPage < 2 ^ 32 ∧ ∀ x ∈ c.inlineValue, x < 256)
    (hl4 : lp.rightSibling < 2 ^ 32)
    (hl5 : lp.cells.length ≤ BPT.MAX_LEAF_KEYS)
    (hl6 : 32 + 2 * lp.cells.length + totalRecordSize lp.cells ≤ ps)
    (hl7 : ps < 2 ^ 16)
    (hi1 : ip.keyCount = ip.cells.length)
    (hi2 : ∀ c ∈ ip.cells, c.key < 2 ^ 64)
    (hi3 : ∀ c ∈ ip.cells, c.child < 2 ^ 32)
    (hi4 : ip.leftChild < 2 ^ 32) (hi5 : ip.rightSibling < 2 ^ 32)
    (hi6 : ip.cells.length ≤ BPT.MAX_INTERNAL_KEYS) :
    (∃ B, serializeLeaf lp ps = .ok B ∧ deserializeLeaf B = .ok lp) ∧
    (∃ B, serializeInternal ip = .ok B ∧ deserializeInternal B = .ok ip) :=
  ⟨leaf_roundtrip lp ps hl1 hl2 hl3 hl4 hl5 hl6 hl7,
    internal_roundtrip ip hi1 hi2 hi3 hi4 hi5 hi6⟩

/-- Witness for C7: the roundtrip at a concrete one-cell leaf page and a
concrete one-cell internal page with pageSize 100. -/
theorem C7_page_serialize_roundtrip_witness :
    (∃ B, serializeLeaf ⟨1, 5, [⟨3, [9, 8], 2, 0⟩]⟩ 100 = .ok B ∧
      deserializeLeaf B = .ok ⟨1, 5, [⟨3, [9, 8], 2, 0⟩]⟩) ∧
    (∃ B, serializeInternal ⟨1, 0, 4, [⟨10, 6⟩]⟩ = .ok B ∧
      deserializeInternal B = .ok ⟨1, 0, 4, [⟨10, 6⟩]⟩) :=
  C7_page_serialize_roundtrip ⟨1, 5, [⟨3, [9, 8], 2, 0⟩]⟩
    ⟨1, 0, 4, [⟨10, 6⟩]⟩ 100 (by decide) (by decide) (by decide) (by decide)
    (by decide) (by decide) (by decide) (by decide) (by decide) (by decide)
    (by decide) (by decide) (by decide)

end Pages

namespace BPT

theorem chainFrom_of_agree (l : List Nat) (st2 st : TreeSt) (h : Nat)
    (hag : ∀ q ∈ l, st2.pageGet q = st.pageGet q) :
    chainFrom st2 h l = chainFrom st h l := by
  induction l generalizing h with
  | nil => rfl
  | cons p rest ih =>
    unfold chainFrom
    rw [hag p (by simp)]
    rw [ih _ (fun q hq => hag q (by simp [hq]))]

theorem chainFrom_mem_pos (l : List Nat) (st : TreeSt) (h : Nat)
    (hch : chainFrom st h l = true) : ∀ q ∈ l, 1 ≤ q := by
  induction l generalizing h with
  | nil => intro q hq; simp at hq
  | cons p rest ih =>
    simp only [chainFrom, Bool.and_eq_true, decide_eq_true_eq] at hch
    intro q hq
    rcases List.mem_cons.mp hq with hq | hq
    · omega
    · exact ih _ hch.2 q hq

theorem freeChain_nil (st : TreeSt) (f : Nat) :
    freeChain st 0 (f + 1) = .ok st := by
  unfold freeChain
  rfl

theorem freeChain_step (st : TreeSt) (h f : Nat) (hne : ¬ h = 0) :
    freeChain st h (f + 1) =
      (freePage st h).bind (fun st1 =>
        freeChain st1 ((st.pageGet h).u32at4) f) := by
  have he : freeChain st h (f + 1) =
      if h = 0 then Except.ok st else
        (freePage st h).bind (fun st1 =>
          freeChain st1 ((st.pageGet h).u32at4) f) := rfl
  rw [he, if_neg hne]

theorem freeChain_spec (chain : List Nat) (st : TreeSt) (h0 fuel : Nat)
    (hch : chainFrom st h0 chain = true)
    (hnd : chain.Nodup)
    (hfuel : chain.length < fuel)
    (hm : metaFits (readMeta st)) :
    ∃ st', freeChain st h0 fuel = .ok st' ∧
      st'.pageSize = st.pageSize ∧
      (∀ q, q ∉ chain → q ≠ 0 → st'.pageGet q = st.pageGet q) ∧
      (∃ fh', readMeta st' = { readMeta st with freePageHead := fh' }) ∧
      metaFits (readMeta st') ∧
      (∀ k, freeWalkGo st' (readMeta st').freePageHead (chain.length + k) =
        chain.reverse ++ freeWalkGo st' (readMeta st).freePageHead k) := by
  induction chain generalizing st h0 fuel with
  | nil =>
    have h00 : h0 = 0 := by simpa [chainFrom] using hch
    cases fuel with
    | zero => omega
    | succ f =>
      refine ⟨st, ?_, rfl, fun q hq hq0 => rfl,
        ⟨(readMeta st).freePageHead, rfl⟩, hm, fun k => by simp⟩
      rw [h00]
      exact freeChain_nil st f
  | cons p rest ih =>
    simp only [chainFrom, Bool.and_eq_true, decide_eq_true_eq] at hch
    obtain ⟨⟨⟨hp, hp1⟩, hp32⟩, hrest⟩ := hch
    simp only [List.nodup_cons] at hnd
    have hmem : ∀ q ∈ rest, 1 ≤ q := chainFrom_mem_pos rest st _ hrest
    cases fuel with
    | zero => simp at hfuel
    | succ f =>
      set st2 : TreeSt := (st.pageSet p
        (.freePg (readMeta st).freePageHead)).pageSet 0
        (.meta { readMeta st with freePageHead := p }) with hst2
      have hfp : freePage st p = .ok st2 := by
        show writeMeta (st.pageSet p (.freePg (readMeta st).freePageHead))
          { readMeta st with freePageHead := p } = .ok st2
        rw [writeMeta_ok _ _ (by
          unfold metaFits at hm ⊢
          simp only []
          exact ⟨hm.1, hm.2.1, hm.2.2.1, hm.2.2.2.1, hm.2.2.2.2.1,
            hm.2.2.2.2.2.1, hp32⟩)]
      have hrm2 : readMeta st2 = { readMeta st with freePageHead := p } :=
        readMeta_of_page0 st2 _ (by rw [hst2, pageGet_pageSet, if_pos rfl])
      have hag2 : ∀ q ∈ rest, st2.pageGet q = st.pageGet q := by
        intro q hq
        rw [hst2, pageGet_pageSet, if_neg (by
            intro hq0
            have := hmem q hq
            omega),
          pageGet_pageSet, if_neg (by
            intro hqp
            exact hnd.1 (hqp ▸ hq))]
      have hch2 : chainFrom st2 ((st.pageGet p).u32at4) rest = true := by
        rw [chainFrom_of_agree rest st2 st _ hag2]
        exact hrest
      obtain ⟨st', hser, hpsz, huntouched, ⟨fh', hmeta⟩, hmfits, hwalk⟩ :=
        ih st2 ((st.pageGet p).u32at4) f hch2 hnd.2 (by
          simp only [List.length_cons] at hfuel
          omega) (by
          rw [hrm2]
          unfold metaFits at hm ⊢
          simp only []
          exact ⟨hm.1, hm.2.1, hm.2.2.1, hm.2.2.2.1, hm.2.2.2.2.1,
            hm.2.2.2.2.2.1, hp32⟩)
      have hcomb : freeChain st p (f + 1) =
          freeChain st2 ((st.pageGet p).u32at4) f := by
        rw [freeChain_step st p f (by omega), hfp]
        rfl
      have hpp : st'.pageGet p = DPage.freePg (readMeta st).freePageHead := by
        rw [huntouched p hnd.1 (by omega), hst2, pageGet_pageSet,
          if_neg (by omega), pageGet_pageSet, if_pos rfl]
      have hfh2 : (readMeta st2).freePageHead = p := by rw [hrm2]
      refine ⟨st', by rw [hp, hcomb]; exact hser, by rw [hpsz]; rfl,
        ?_, ⟨fh', ?_⟩, hmfits, ?_⟩
      · intro q hq hq0
        rw [huntouched q (by simp at hq; exact fun hc => hq.2 hc) hq0,
          hst2, pageGet_pageSet, if_neg hq0, pageGet_pageSet,
          if_neg (by simp at hq; exact hq.1)]
      · rw [hmeta, hrm2]
      · intro k
        have h1 := hwalk (k + 1)
        rw [hfh2] at h1
        have h2 : freeWalkGo st' p (k + 1) =
            p :: freeWalkGo st' (readMeta st).freePageHead k := by
          have he : freeWalkGo st' p (k + 1) =
              if p = 0 then [] else
                p :: freeWalkGo st' ((st'.pageGet p).u32at0) k := rfl
          rw [he, if_neg (by omega), hpp]
          rfl
        rw [h2] at h1
        simp only [List.length_cons, List.reverse_cons]
        rw [show rest.length + 1 + k = rest.length + (k + 1) from by omega]
        rw [h1, List.append_assoc]
        rfl

theorem okBind {α β : Type} (x : α) (f : α → Except String β) :
    (Except.ok x >>= f : Except String β) = f x := rfl

theorem freeWalkGo_congr (st4 st2 : TreeSt) (h n : Nat)
    (hmem : ∀ q ∈ freeWalkGo st2 h n, st4.pageGet q = st2.pageGet q) :
    freeWalkGo st4 h n = freeWalkGo st2 h n := by
  induction n generalizing h with
  | zero => rfl
  | succ n ih =>
    by_cases h0 : h = 0
    · rw [show freeWalkGo st4 h (n + 1) =
          if h = 0 then [] else
            h :: freeWalkGo st4 ((st4.pageGet h).u32at0) n from rfl,
        show freeWalkGo st2 h (n + 1) =
          if h = 0 then [] else
            h :: freeWalkGo st2 ((st2.pageGet h).u32at0) n from rfl,
        if_pos h0, if_pos h0]
    · have hh : st4.pageGet h = st2.pageGet h := by
        apply hmem
        rw [show freeWalkGo st2 h (n + 1) =
          if h = 0 then [] else
            h :: freeWalkGo st2 ((st2.pageGet h).u32at0) n from rfl,
          if_neg h0]
        simp
      rw [show freeWalkGo st4 h (n + 1) =
          if h = 0 then [] else
            h :: freeWalkGo st4 ((st4.pageGet h).u32at0) n from rfl,
        show freeWalkGo st2 h (n + 1) =
          if h = 0 then [] else
            h :: freeWalkGo st2 ((st2.pageGet h).u32at0) n from rfl,
        if_neg h0, if_neg h0, hh]
      rw [ih ((st2.pageGet h).u32at0) (fun q hq => hmem q (by
        rw [show freeWalkGo st2 h (n + 1) =
          if h = 0 then [] else
            h :: freeWalkGo st2 ((st2.pageGet h).u32at0) n from rfl,
          if_neg h0]
        simp [hq]))]

theorem eraseIdx_cells_length_le (l : List LeafCell) (i : Nat) :
    (l.eraseIdx i).length ≤ l.length :=
  (l.eraseIdx_sublist i).length_le

theorem leafSerializedSize_eraseIdx_le (l : List LeafCell) (i : Nat) :
    leafSerializedSize (l.eraseIdx i) ≤ leafSerializedSize l := by
  unfold leafSerializedSize
  have h1 := (l.eraseIdx_sublist i).length_le
  have h2 : ((l.eraseIdx i).map leafCellSerializedSize).sum ≤
      (l.map leafCellSerializedSize).sum :=
    ((l.eraseIdx_sublist i).map leafCellSerializedSize).sum_le_sum
      (fun a ha => Nat.zero_le a)
  omega

theorem all_eraseIdx (l : List LeafCell) (i : Nat)
    (p : LeafCell → Bool) (h : l.all p = true) :
    (l.eraseIdx i).all p = true := by
  rw [List.all_eq_true] at h ⊢
  exact fun a ha => h a ((l.eraseIdx_sublist i).subset ha)

theorem bindOk_inv {α β : Type} (e : Except String α)
    (f : α → Except String β) (v : β) (h : (e >>= f) = .ok v) :
    ∃ w, e = .ok w ∧ f w = .ok v := by
  cases e with
  | ok w => exact ⟨w, rfl, h⟩
  | error s => exact absurd h (by simp [show (Except.error s >>= f :
      Except String β) = .error s from rfl])

theorem writeMeta_inv (st : TreeSt) (m : MetaPage) (y : TreeSt)
    (h : writeMeta st m = .ok y) : y = st.pageSet 0 (.meta m) := by
  unfold writeMeta at h
  split at h
  · cases h
    rfl
  · cases h

theorem storeLeaf_inv (st : TreeSt) (p : Nat) (L : LeafPage) (y : TreeSt)
    (h : storeLeaf st p L = .ok y) : y = st.pageSet p (.leaf L) := by
  unfold storeLeaf at h
  split at h
  · cases h
  · split at h
    · cases h
    · split at h
      · cases h
        rfl
      · cases h

theorem storeInternal_inv (st : TreeSt) (p : Nat) (P : InternalPage)
    (y : TreeSt) (h : storeInternal st p P = .ok y) :
    y = st.pageSet p (.internal P) := by
  unfold storeInternal at h
  split at h
  · cases h
  · split at h
    · cases h
    · split at h
      · cases h
        rfl
      · cases h

theorem releasePath_frame (path : List PathEntry) (st st' : TreeSt)
    (h : releasePath st path = .ok st') :
    ∀ q, q ∉ path.map (fun e => e.pageNumber) → st'.pageGet q = st.pageGet q := by
  induction path generalizing st with
  | nil =>
    cases h
    intro q hq
    rfl
  | cons e rest ih =>
    intro q hq
    simp only [List.map_cons, List.mem_cons] at hq
    push_neg at hq
    unfold releasePath at h
    simp only [] at h
    by_cases hd : e.dirty
    · rw [if_pos hd] at h
      obtain ⟨st1, h1, h2⟩ := bindOk_inv _ _ _ h
      rw [ih st1 h2 q hq.2, storeInternal_inv _ _ _ _ h1, pageGet_pageSet,
        if_neg hq.1]
    · rw [if_neg hd] at h
      simp only [okBind] at h
      rw [ih st h q hq.2]

theorem modifyLast_map_pageNumber (f : PathEntry → PathEntry)
    (hf : ∀ e, (f e).pageNumber = e.pageNumber) (l : List PathEntry) :
    (modifyLast f l).map (fun e => e.pageNumber) =
      l.map (fun e => e.pageNumber) := by
  induction l with
  | nil => rfl
  | cons e rest ih =>
    cases rest with
    | nil => simp [modifyLast, hf]
    | cons e2 rest2 =>
      rw [show modifyLast f (e :: e2 :: rest2) =
        e :: modifyLast f (e2 :: rest2) from rfl]
      simp only [List.map_cons]
      rw [ih]
      rw [List.map_cons]

theorem modifyLast_get_len (f : PathEntry → PathEntry)
    (hf : ∀ e, (f e).page.cells.length = e.page.cells.length)
    (l : List PathEntry) (i : Nat) (e : PathEntry)
    (h : (modifyLast f l)[i]? = some e) :
    ∃ e0, l[i]? = some e0 ∧ e.page.cells.length = e0.page.cells.length := by
  induction l generalizing i with
  | nil => simp [modifyLast] at h
  | cons e1 rest ih =>
    cases rest with
    | nil =>
      match i with
      | 0 =>
        rw [show modifyLast f [e1] = [f e1] from rfl] at h
        simp at h
        exact ⟨e1, rfl, by rw [← h, hf]⟩
      | n + 1 =>
        rw [show modifyLast f [e1] = [f e1] from rfl] at h
        simp at h
    | cons e2 rest2 =>
      rw [show modifyLast f (e1 :: e2 :: rest2) =
        e1 :: modifyLast f (e2 :: rest2) from rfl] at h
      match i with
      | 0 =>
        simp at h
        exact ⟨e1, rfl, by rw [← h]⟩
      | n + 1 =>
        simp only [List.getElem?_cons_succ] at h ⊢
        exact ih n h

theorem modifyLast_eq_nil (f : PathEntry → PathEntry) (l : List PathEntry)
    (h : l = []) : modifyLast f l = [] := by
  rw [h]
  rfl

theorem updateParentKeyForLeaf_pageNumber (p : PathEntry) (s : Int)
    (L : LeafPage) : (updateParentKeyForLeaf p s L).pageNumber =
      p.pageNumber := by
  unfold updateParentKeyForLeaf
  split
  · rfl
  · split
    · rfl
    · simp only []
      split
      · rfl
      · rfl

theorem updateParentKeyForLeaf_len (p : PathEntry) (s : Int) (L : LeafPage) :
    (updateParentKeyForLeaf p s L).page.cells.length =
      p.page.cells.length := by
  unfold updateParentKeyForLeaf
  split
  · rfl
  · split
    · rfl
    · simp only []
      split
      · rfl
      · simp [List.length_set]

theorem rebalanceInternalPathGo_trivial (st : TreeSt) (path : List PathEntry)
    (hmin : ∀ i e, path[i]? = some e →
      (if i = 0 then 1 else MIN_INTERNAL_KEYS) ≤ e.page.cells.length)
    (k : Nat) : rebalanceInternalPathGo st path k = .ok (st, path) := by
  induction k with
  | zero => rfl
  | succ k ih =>
    have hstep : rebalanceInternalPathGo st path (k + 1) =
        (match path[k]? with
        | none => rebalanceInternalPathGo st path k
        | some entry =>
          if (if k = 0 then 1 else MIN_INTERNAL_KEYS) ≤
              entry.page.cells.length then
            rebalanceInternalPathGo st path k
          else if k = 0 then
            (shrinkRootIfNeeded st path entry).bind fun r =>
              if r.1 then .ok (r.2.1, r.2.2)
              else rebalanceInternalPathGo r.2.1 r.2.2 k
          else
            (rebalanceInternalEntry st path k).bind fun r =>
              rebalanceInternalPathGo r.1 r.2 k) := rfl
    rw [hstep]
    cases hpk : path[k]? with
    | none => exact ih
    | some entry =>
      simp only []
      rw [if_pos (hmin k entry hpk)]
      exact ih

set_option maxHeartbeats 1600000 in
/-- C9: for every state of any depth, every key and every successful
delete of it: when the traversal finds the cell of the key and that cell
carries a non-zero overflow chain head, the delete returns true, removes
the leaf cell, and pushes every page of the overflow chain onto the
persistent free list - after the delete every chain page is among the
pages the free-list walk from meta.freePageHead pops.  Quantified over
arbitrary trees, paths and chains; the side conditions only name the
places the write-back pipeline touches (the leaf, the path pages and the
meta page are distinct from the chain and non-zero), require the deleted
leaf not to fall below the rebalance minimum (so the delete does not
cascade into merges, which recycle further pages beyond this claim), and
bound the fuel by the chain length. -/
theorem C9_delete_frees_overflow_chain
    (st st' : TreeSt) (key fuel idx leafPN : Nat) (b : Bool)
    (path : List PathEntry) (leaf : LeafPage)
    (cell : LeafCell) (chain : List Nat)
    (hdel : delete st key fuel = .ok (b, st'))
    (htrav : traverseToLeaf st key fuel = .ok (path, leafPN, leaf))
    (hfind : leaf.cells.findIdx? (fun c => c.key = key) = some idx)
    (hcellAt : leaf.cells[idx]? = some cell)
    (hch : chainFrom st cell.overflowPage chain = true)
    (hnd : chain.Nodup)
    (hfuel : chain.length < fuel)
    (hmf : metaFits (readMeta st))
    (hnoreb : (readMeta st).treeDepth = 1 ∨ path = [] ∨
      max 1 MIN_LEAF_KEYS ≤ (leaf.cells.eraseIdx idx).length)
    (hpmin : ∀ i e, path[i]? = some e →
      (if i = 0 then 1 else MIN_INTERNAL_KEYS) ≤ e.page.cells.length)
    (hleafPN1 : 1 ≤ leafPN) (hleafPNc : leafPN ∉ chain)
    (hleafPNp : leafPN ∉ path.map (fun e => e.pageNumber))
    (hpp : ∀ e ∈ path, 1 ≤ e.pageNumber ∧ e.pageNumber ∉ chain) :
    b = true ∧
    (∀ q ∈ chain, q ∈ freeListPages st' chain.length) ∧
    st'.pageGet leafPN =
      .leaf { leaf with cells := leaf.cells.eraseIdx idx } := by
  by_cases hkey : key < 2 ^ 64
  case neg =>
    unfold delete at hdel
    rw [if_neg hkey] at hdel
    exact absurd hdel (by simp)
  case pos =>
  unfold delete at hdel
  rw [if_pos hkey, htrav] at hdel
  simp only [okBind] at hdel
  rw [hfind] at hdel
  simp only [] at hdel
  rw [hcellAt] at hdel
  simp only [] at hdel
  obtain ⟨st2, hfree, hpsz2, huntouched, ⟨fh2, hmeta2⟩, hmfits2, hwalk⟩ :=
    freeChain_spec chain st cell.overflowPage fuel hch hnd hfuel
      hmf
  rw [hfree] at hdel
  simp only [okBind] at hdel
  obtain ⟨path1, hpeq, hmap1, hlen1, hnil1⟩ :
      ∃ path1, (if idx = 0 ∧ (leaf.cells.eraseIdx idx).length > 0 then
          modifyLast (fun p => updateParentKeyForLeaf p p.childIndex
            { leaf with cells := leaf.cells.eraseIdx idx }) path
        else path) = path1 ∧
        path1.map (fun e => e.pageNumber) =
          path.map (fun e => e.pageNumber) ∧
        (∀ (i : Nat) (e : PathEntry), path1[i]? = some e →
          ∃ e0 : PathEntry, path[i]? = some e0 ∧
            e.page.cells.length = e0.page.cells.length) ∧
        (path = [] → path1 = []) := by
    split
    · refine ⟨modifyLast (fun p => updateParentKeyForLeaf p p.childIndex
        { leaf with cells := leaf.cells.eraseIdx idx }) path, rfl, ?_, ?_, ?_⟩
      · exact modifyLast_map_pageNumber _
          (fun e => updateParentKeyForLeaf_pageNumber _ _ _) path
      · exact modifyLast_get_len _
          (fun e => updateParentKeyForLeaf_len _ _ _) path
      · exact fun hnl => modifyLast_eq_nil _ _ hnl
    · exact ⟨path, rfl, rfl, fun i e h => ⟨e, h, rfl⟩, fun h => h⟩
  rw [hpeq] at hdel
  obtain ⟨st3, hmut, hdel⟩ := bindOk_inv _ _ _ hdel
  have hst3 : st3 = st2.pageSet 0 (.meta { readMeta st with
      keyCount := (readMeta st).keyCount - 1, freePageHead := fh2 }) := by
    unfold mutateMeta at hmut
    rw [writeMeta_inv _ _ _ hmut, hmeta2]
  have hmeta3 : readMeta st3 = { readMeta st with
      keyCount := (readMeta st).keyCount - 1, freePageHead := fh2 } :=
    readMeta_of_page0 st3 _ (by rw [hst3, pageGet_pageSet, if_pos rfl])
  have hd3 : (readMeta st3).treeDepth = (readMeta st).treeDepth := by
    rw [hmeta3]
  obtain ⟨path2, hreb, hmap2, hlen2⟩ :
      ∃ path2, rebalanceLeafAfterDelete st3 leafPN
          { leaf with cells := leaf.cells.eraseIdx idx } path1 true =
          .ok ⟨st3, leafPN, { leaf with cells := leaf.cells.eraseIdx idx },
            true, path2⟩ ∧
        path2.map (fun e => e.pageNumber) =
          path.map (fun e => e.pageNumber) ∧
        (∀ (i : Nat) (e : PathEntry), path2[i]? = some e →
          ∃ e0 : PathEntry, path[i]? = some e0 ∧
            e.page.cells.length = e0.page.cells.length) := by
    unfold rebalanceLeafAfterDelete
    by_cases hd1 : (readMeta st3).treeDepth = 1
    · rw [if_pos hd1]
      exact ⟨path1, rfl, hmap1, hlen1⟩
    · rw [if_neg hd1]
      cases hgl : path1.getLast? with
      | none =>
        simp only []
        exact ⟨path1, rfl, hmap1, hlen1⟩
      | some parent =>
        simp only []
        have hmin : max 1 MIN_LEAF_KEYS ≤ (leaf.cells.eraseIdx idx).length := by
          rcases hnoreb with h | h | h
          · exact absurd (hd3.trans h) hd1
          · rw [hnil1 h] at hgl
            simp at hgl
          · exact h
        rw [if_pos hmin]
        refine ⟨modifyLast (fun p => updateParentKeyForLeaf p p.childIndex
          { leaf with cells := leaf.cells.eraseIdx idx }) path1, rfl, ?_, ?_⟩
        · rw [modifyLast_map_pageNumber _
            (fun e => updateParentKeyForLeaf_pageNumber _ _ _), hmap1]
        · intro i e h
          obtain ⟨e1, h1, hl⟩ := modifyLast_get_len _
            (fun e => updateParentKeyForLeaf_len _ _ _) path1 i e h
          obtain ⟨e0, h0, hl0⟩ := hlen1 i e1 h1
          exact ⟨e0, h0, hl.trans hl0⟩
  rw [hreb] at hdel
  simp only [okBind] at hdel
  have hGo : rebalanceInternalPath st3 path2 = .ok (st3, path2) := by
    unfold rebalanceInternalPath
    exact rebalanceInternalPathGo_trivial st3 path2 (fun i e h => by
      obtain ⟨e0, h0, hl⟩ := hlen2 i e h
      rw [hl]
      exact hpmin i e0 h0) path2.length
  rw [hGo] at hdel
  simp only [okBind] at hdel
  simp only [if_true] at hdel
  obtain ⟨st4, hst4eq, hdel⟩ := bindOk_inv _ _ _ hdel
  have hst4 : st4 = st3.pageSet leafPN
      (.leaf { leaf with cells := leaf.cells.eraseIdx idx }) :=
    storeLeaf_inv _ _ _ _ hst4eq
  obtain ⟨st5, hrel, hdel⟩ := bindOk_inv _ _ _ hdel
  have hfin : b = true ∧ st' = st5 := by
    have hinj : (Except.ok ((true : Bool), st5) :
        Except String (Bool × TreeSt)) = .ok (b, st') := hdel
    simp only [Except.ok.injEq, Prod.mk.injEq] at hinj
    exact ⟨hinj.1.symm, hinj.2.symm⟩
  obtain ⟨hb, hst'⟩ := hfin
  subst hst'
  -- pages of path2 are positive and outside the chain
  have hpp2 : ∀ pn ∈ path2.map (fun e => e.pageNumber), 1 ≤ pn ∧ pn ∉ chain := by
    intro pn hpn
    rw [hmap2] at hpn
    rw [List.mem_map] at hpn
    obtain ⟨e0, he0, hpe⟩ := hpn
    rw [← hpe]
    exact hpp e0 he0
  have hframe5 : ∀ q, q ∈ chain → st'.pageGet q = st2.pageGet q := by
    intro q hq
    have hq0 : 1 ≤ q := chainFrom_mem_pos chain st cell.overflowPage hch q hq
    rw [releasePath_frame path2 st4 st' hrel q (by
      intro hmem
      exact ((hpp2 q hmem).2 hq))]
    rw [hst4, pageGet_pageSet, if_neg (by
      intro he
      exact hleafPNc (he ▸ hq))]
    rw [hst3, pageGet_pageSet, if_neg (by omega)]
  have hmeta5 : readMeta st' = { readMeta st with
      keyCount := (readMeta st).keyCount - 1, freePageHead := fh2 } := by
    have h0 : st'.pageGet 0 = st3.pageGet 0 := by
      rw [releasePath_frame path2 st4 st' hrel 0 (by
        intro hmem
        have := (hpp2 0 hmem).1
        omega)]
      rw [hst4, pageGet_pageSet, if_neg (by omega)]
    exact readMeta_of_page0 st' _ (by
      rw [h0, hst3, pageGet_pageSet, if_pos rfl])
  refine ⟨hb, ?_, ?_⟩
  · intro q hq
    have hwalk2 : freeWalkGo st2 fh2 chain.length = chain.reverse := by
      have h0 := hwalk 0
      rw [hmeta2] at h0
      simp only [Nat.add_zero] at h0
      rw [show freeWalkGo st2 (readMeta st).freePageHead 0 = [] from rfl,
        List.append_nil] at h0
      exact h0
    unfold freeListPages
    have hfh5 : (readMeta st').freePageHead = fh2 := by rw [hmeta5]
    rw [hfh5]
    rw [freeWalkGo_congr st' st2 fh2 chain.length (by
      intro q2 hq2
      rw [hwalk2] at hq2
      rw [List.mem_reverse] at hq2
      exact hframe5 q2 hq2)]
    rw [hwalk2, List.mem_reverse]
    exact hq
  · rw [releasePath_frame path2 st4 st' hrel leafPN (by
      rw [hmap2]
      exact hleafPNp)]
    rw [hst4, pageGet_pageSet, if_pos rfl]



set_option maxHeartbeats 1600000 in
/-- Witness for C9: deleting key 1 from the depth-2 store c9St succeeds,
frees both pages of its overflow chain 3 -> 4 onto the free list, and
removes the cell from the left leaf. -/
theorem C9_delete_frees_overflow_chain_witness :
    ∃ st', delete c9St 1 3 = .ok (true, st') ∧
      (∀ q ∈ ([3, 4] : List Nat), q ∈ freeListPages st' 2) ∧
      st'.pageGet 1 = .leaf ⟨5, c9Cells.eraseIdx 0⟩ := by
  have hok : (delete c9St 1 3).isOk = true := by decide
  match hdel : delete c9St 1 3 with
  | .error e =>
    rw [hdel] at hok
    simp [Except.isOk, Except.toBool] at hok
  | .ok (b, st') =>
    have h := C9_delete_frees_overflow_chain c9St st' 1 3 0 1 b
      [⟨2, ⟨0, 1, [⟨1000, 5⟩]⟩, false, -1⟩] ⟨5, c9Cells⟩
      ⟨1, ⟨1, 0⟩, 9000, 3⟩ [3, 4] hdel (by rfl) (by rfl) (by rfl) (by decide) (by decide)
      (by decide) (by decide) (Or.inr (Or.inr (by decide)))
      (by
        intro i e hh
        match i with
        | 0 =>
          cases hh
          decide
        | n + 1 => simp at hh)
      (by decide) (by decide) (by decide) (by decide)
    exact ⟨st', by rw [h.1], h.2.1, h.2.2⟩

end BPT
